import Mathlib

/-!
# Verification of `fedora-java/modularity-utils`

Shallow embedding of the two scripts of the repository,
`generate-modulemd.py` and `pkg-versions/pkg-versions.py`, together with
proofs about the embedded definitions.

External collaborators (the Koji RPC endpoints, the SAT-based dependency
resolver `koschei.backend.depsolve`, the release-monitoring HTTP API, the
`rpm.labelCompare` routine, the Jinja template renderer and the markdown
comment source) are modelled as oracle parameters; everything the scripts
compute themselves is translated directly from the Python source.

Python `dict`s are modelled as association lists with in-place update
(`dinsert`), Python `set`s as `Finset`, Python exceptions as `Option`.
-/

set_option maxRecDepth 8000

namespace ModUtils

/-! ## Python dictionaries as association lists -/

/-- Python `d[k] = v`: replace the binding in place if `k` is present,
otherwise append it (insertion order is preserved, as for `dict`). -/
def dinsert {α : Type} : List (String × α) → String → α → List (String × α)
  | [], k, v => [(k, v)]
  | (k', v') :: rest, k, v =>
    if k' = k then (k, v) :: rest else (k', v') :: dinsert rest k v

/-- Python `d[k]`, returning `none` where Python raises `KeyError`. -/
def dlookup {α : Type} : List (String × α) → String → Option α
  | [], _ => none
  | (k', v') :: rest, k => if k' = k then some v' else dlookup rest k

/-- Python `k in d.keys()`. -/
def dcontains {α : Type} (d : List (String × α)) (k : String) : Bool :=
  (dlookup d k).isSome

theorem dlookup_dinsert_self {α : Type} (d : List (String × α)) (k : String) (v : α) :
    dlookup (dinsert d k v) k = some v := by
  induction d with
  | nil => simp [dinsert, dlookup]
  | cons p rest ih =>
    obtain ⟨k', v'⟩ := p
    by_cases h : k' = k <;> simp [dinsert, dlookup, h, ih]

theorem dlookup_dinsert_ne {α : Type} (d : List (String × α)) (k k' : String) (v : α)
    (h : k' ≠ k) : dlookup (dinsert d k v) k' = dlookup d k' := by
  have h' : ¬ (k = k') := fun hh => h hh.symm
  induction d with
  | nil => simp [dinsert, dlookup, h']
  | cons p rest ih =>
    obtain ⟨k₀, v₀⟩ := p
    by_cases h0 : k₀ = k
    · subst h0
      simp [dinsert, dlookup, h']
    · by_cases h1 : k₀ = k' <;> simp [dinsert, dlookup, h0, h1, h, ih]

theorem mem_dinsert {α : Type} (d : List (String × α)) (k : String) (v : α) (p : String × α) :
    p ∈ dinsert d k v → p = (k, v) ∨ p ∈ d := by
  induction d with
  | nil => intro h; simpa [dinsert] using h
  | cons q rest ih =>
    obtain ⟨k', v'⟩ := q
    intro h
    by_cases h0 : k' = k
    · subst h0
      simp only [dinsert, if_true, eq_self_iff_true, if_pos, List.mem_cons] at h
      exact h.imp (fun h1 => h1) (fun h1 => List.mem_cons_of_mem _ h1)
    · simp only [dinsert, if_neg h0, List.mem_cons] at h
      cases h with
      | inl h1 => exact Or.inr (by simp [h1])
      | inr h1 =>
        cases ih h1 with
        | inl h2 => exact Or.inl h2
        | inr h2 => exact Or.inr (List.mem_cons_of_mem _ h2)

/-! ## `generate-modulemd.py`: parsing RPM file names

`parse_nvra` embeds the regular-expression match
`^(.+)-([^-]+)-([^-]+)\.([^-.]+).rpm$` of `generate-modulemd.py`
(greedy groups with backtracking; the unescaped `.` before `rpm` matches
any character; `.` in groups excludes the newline character; `$` is
modelled as end of string, the inputs being RPM file names).
Where the Python code would raise `AttributeError` (no match) the
embedding returns `none`. -/

structure NVRA where
  name : String
  version : String
  release : String
  arch : String
deriving DecidableEq, Repr

/-- What the regex metacharacter `.` matches (anything but a newline). -/
def reAny (c : Char) : Bool := c ≠ '\n'

/-- Match `([^-.]+).rpm$` against `t`, returning the group (the arch). -/
def matchArch (t : List Char) : Option (List Char) :=
  if 5 ≤ t.length then
    let g4 := t.take (t.length - 4)
    if g4.all (fun c => c ≠ '-' && c ≠ '.') && reAny (t.getD (t.length - 4) ' ') &&
        decide (t.drop (t.length - 3) = ['r', 'p', 'm']) then
      some g4
    else none
  else none

/-- Match `([^-]+)\.([^-.]+).rpm$` against `l`: group 3 is greedy, so try
the longest split first (backtracking order of the regex engine). -/
def matchRelArch (l : List Char) : Option (List Char × List Char) :=
  (List.range l.length).reverse.findSome? fun k =>
    if k = 0 then none
    else
      let g3 := l.take k
      if g3.all (fun c => c ≠ '-') && decide (l.getD k ' ' = '.') then
        (matchArch (l.drop (k + 1))).map (fun g4 => (g3, g4))
      else none

/-- Match `([^-]+)-([^-]+)\.([^-.]+).rpm$` against `l`: group 2 is a run of
non-`-` characters followed by a literal `-`, hence forced. -/
def matchVerRelArch (l : List Char) : Option (List Char × List Char × List Char) :=
  let g2 := l.takeWhile (fun c => c ≠ '-')
  if g2 = [] then none
  else
    match l.drop g2.length with
    | '-' :: rest => (matchRelArch rest).map (fun p => (g2, p.1, p.2))
    | _ => none

/-- `parse_nvra` of `generate-modulemd.py`: split an RPM file name into its
NVRA dictionary.  Group 1 (`.+`, the name) is greedy, so the longest
candidate is tried first. -/
def parse_nvra (s : String) : Option NVRA :=
  let cs := s.data
  (List.range cs.length).reverse.findSome? fun i =>
    if i = 0 then none
    else
      let g1 := cs.take i
      if g1.all reAny && decide (cs.getD i ' ' = '-') then
        (matchVerRelArch (cs.drop (i + 1))).map fun t =>
          ⟨⟨g1⟩, ⟨t.1⟩, ⟨t.2.1⟩, ⟨t.2.2⟩⟩
      else none

/-- `name` of `generate-modulemd.py`: the name component of an RPM file name. -/
def nameOf (rpm : String) : Option String :=
  (parse_nvra rpm).map NVRA.name

/-! ## `generate-modulemd.py`: package classification and dependency resolution -/

/-- A hawkey package, with the fields the script reads. -/
structure Pkg where
  name : String
  sourcerpm : String
  files : List String
deriving DecidableEq, Repr

/-- The configuration values (from `koschei.cfg`) that the closure loop reads. -/
structure Config where
  includes : List String
  excludes : List String
  filtered : Finset String
  include_build_deps : Bool
  closure : Bool
deriving DecidableEq

/-- `str.startswith` on strings (same semantics as `String.startsWith`,
spelled out on the character lists so that the kernel evaluates it). -/
def str_starts_with (s pat : String) : Bool :=
  pat.data.isPrefixOf s.data

/-- `is_maven_pkg` of `generate-modulemd.py`: heuristically guess whether a
hawkey package is a Java package.  Explicit includes and excludes have
preference over the heuristic.  `none` models the `AttributeError` raised
by `name()` when the source RPM file name does not parse. -/
def is_maven_pkg (C : Config) (pkg : Pkg) : Option Bool :=
  match nameOf pkg.sourcerpm with
  | none => none
  | some n =>
    if n ∈ C.includes then some true
    else if n ∈ C.excludes then some false
    else some (pkg.files.any fun file =>
      str_starts_with file "/usr/share/maven-metadata/" ||
      str_starts_with file "/usr/share/java/" ||
      str_starts_with file "/usr/lib/java/")

/-- Result of one `depsolve.run_goal` call of the external SAT resolver. -/
structure GoalResult where
  resolved : Bool
  problems : List String
  installs : Finset Pkg

/-- The set comprehension `{pkg.sourcerpm for pkg in installs if is_maven_pkg(pkg)}`:
`none` when `is_maven_pkg` raises on some installed package. -/
def javaSet (C : Config) (installs : Finset Pkg) : Option (Finset String) :=
  if ∀ p ∈ installs, (is_maven_pkg C p).isSome then
    some ((installs.filter fun p => is_maven_pkg C p = some true).image Pkg.sourcerpm)
  else none

/-- `resolve_deps` of `generate-modulemd.py`: simulate installation of the
given dependencies.  The whole goal is submitted to the external resolver
(`runGoal`); if it is unsatisfiable, each dependency is re-submitted
individually and the installs of the satisfiable goals are united
(the unsatisfiable ones are only logged).  Returns the Java source RPMs of
the installed packages together with the installed packages.
`resolve_installs` is the install set the function computes, `resolve_deps`
adds the Java classification. -/
def resolve_installs (runGoal : Finset String → GoalResult)
    (deps : Finset String) : Finset Pkg :=
  if (runGoal deps).resolved then (runGoal deps).installs
  else deps.biUnion fun d =>
    if (runGoal {d}).resolved then (runGoal {d}).installs else ∅

def resolve_deps (C : Config) (runGoal : Finset String → GoalResult)
    (deps : Finset String) : Option (Finset String × Finset Pkg) :=
  match javaSet C (resolve_installs runGoal deps) with
  | none => none
  | some java => some (java, resolve_installs runGoal deps)

/-! ## `generate-modulemd.py`: the closure loop of `work`

The Koji calls `get_build_requires` (build-requires of one SRPM) and
`get_binary_rpms` (binary RPM names of a set of SRPMs) are external RPC
calls, modelled as oracles. -/

structure Oracles where
  runGoal : Finset String → GoalResult
  buildRequires : String → Finset String
  binaryRpms : Finset String → Finset String

/-- The mutable state of `work`'s while loop. -/
structure LoopState where
  srpms_done : Finset String
  srpms_todo : Finset String
  pkgs : Finset Pkg
  br_map : Finset (String × String)
deriving DecidableEq

/-- The test `name(srpm) not in excludes` (`false` where `name` would raise;
that case is excluded by the guard in `filterTodo`). -/
def notExcluded (C : Config) (s : String) : Bool :=
  match nameOf s with
  | some n => !C.excludes.contains n
  | none => false

/-- The round's filter `{srpm for srpm in srpms_todo if name(srpm) not in excludes}`;
`none` models the exception raised when some SRPM file name does not parse. -/
def filterTodo (C : Config) (todo : Finset String) : Option (Finset String) :=
  if ∀ s ∈ todo, (nameOf s).isSome then
    some (todo.filter fun s => notExcluded C s = true)
  else none

/-- The round's `combined_br` set: build-requires of the round's SRPMs when
`include_build_deps` is set, plus the non-filtered binary RPMs when
`closure` is set. -/
def roundBr (C : Config) (O : Oracles) (todo : Finset String) : Finset String :=
  (if C.include_build_deps then todo.biUnion O.buildRequires else ∅) ∪
  (if C.closure then O.binaryRpms todo \ C.filtered else ∅)

/-- The round's additions to `br_map` (pairs of a BuildRequires string and
the SRPM that requires it). -/
def roundBrMap (C : Config) (O : Oracles) (todo : Finset String) : Finset (String × String) :=
  if C.include_build_deps then
    todo.biUnion fun srpm => (O.buildRequires srpm).image fun br => (br, srpm)
  else ∅

/-- One iteration of the while loop of `work` (lines 191-207 of
`generate-modulemd.py`). -/
def step (C : Config) (O : Oracles) (st : LoopState) : Option LoopState :=
  match filterTodo C st.srpms_todo with
  | none => none
  | some todo =>
    let done := st.srpms_done ∪ todo
    match resolve_deps C O.runGoal (roundBr C O todo) with
    | none => none
    | some (java, all) =>
      some ⟨done, (todo ∪ java) \ done, st.pkgs ∪ all, st.br_map ∪ roundBrMap C O todo⟩

/-- The while loop of `work`: iterate `step` while `srpms_todo` is nonempty.
`fuel` bounds the number of iterations (`none` on exhaustion models
divergence; `none` from `step` models an exception). -/
def workLoop (C : Config) (O : Oracles) : Nat → LoopState → Option LoopState
  | 0, _ => none
  | fuel + 1, st =>
    if st.srpms_todo = ∅ then some st
    else
      match step C O st with
      | none => none
      | some st' => workLoop C O fuel st'

/-- The initial loop state of `work`:
`srpms_todo, pkgs = resolve_deps(sack, api)` with nothing done yet. -/
def work_init (C : Config) (O : Oracles) (api : Finset String) : Option LoopState :=
  match resolve_deps C O.runGoal api with
  | none => none
  | some (java, pkgs) => some ⟨∅, java, pkgs, ∅⟩

/-- The closure computation of `work`: initial resolution of the `api` seed
followed by the while loop. -/
def work_run (C : Config) (O : Oracles) (api : Finset String) (fuel : Nat) :
    Option LoopState :=
  match work_init C O api with
  | none => none
  | some st => workLoop C O fuel st

/-! ## `generate-modulemd.py`: `topo_sort`

`topo_sort(V, E)` repeatedly collects the set `U` of vertices of `V` that
depend on no remaining vertex (`v in E.get(u, ())` means `v` depends on
`u`), assigns them the current level `i`, and removes them; it returns
`None` when it gets stuck.  `E.get(u, ())` makes `E` a total function with
default `∅`, so the embedding takes `E : α → Finset α`.  The `while`
loop strictly shrinks `V` on every iteration that does not return, so it is
rendered as recursion with fuel `V.card` (never exhausted, see
`topo_go_fuel_irrelevant`-style invariants in the proofs). -/

variable {α : Type} [DecidableEq α]

/-- The set `U` of one round of `topo_sort`: the vertices of `V` that no
remaining vertex makes them depend on. -/
def uSet (E : α → Finset α) (V : Finset α) : Finset α :=
  V.filter fun v => ∀ u ∈ V, v ∉ E u

/-- The while loop of `topo_sort`, with the result dictionary `W` as a set
of (vertex, level) pairs. -/
def topo_go (E : α → Finset α) : Nat → Finset α → Nat → Option (Finset (α × Nat))
  | 0, V, _ => if V = ∅ then some ∅ else none
  | fuel + 1, V, i =>
    if V = ∅ then some ∅
    else if uSet E V = ∅ then none
    else
      match topo_go E fuel (V \ uSet E V) (i + 1) with
      | none => none
      | some W => some ((uSet E V).image (fun v => (v, i)) ∪ W)

/-- `topo_sort(V, E)` of `generate-modulemd.py` (levels start at `i = 1`). -/
def topo_sort (V : Finset α) (E : α → Finset α) : Option (Finset (α × Nat)) :=
  topo_go E V.card V 1

/-- `v` depends on `u` within the vertex set `V` (`v in E.get(u, ())`). -/
def DepRel (E : α → Finset α) (V : Finset α) (v u : α) : Prop :=
  v ∈ V ∧ u ∈ V ∧ v ∈ E u

/-- The dependency graph restricted to `V` contains a cycle: some vertex
transitively depends on itself. -/
def hasCycle (E : α → Finset α) (V : Finset α) : Prop :=
  ∃ v, Relation.TransGen (DepRel E V) v v

/-! ## `pkg-versions.py`: constants and Koji lookups -/

def upstream_cache_interval : Int := 1 * 60 * 60

def upstream_cache_path : String := "/tmp/pkg-versions-upstream-cache.json"

def fedora_releases : List String := ["f28", "f29", "f30", "f31"]

def releases : List String := fedora_releases ++ ["mbi", "upstream"]

def mbi_index : Nat := fedora_releases.length

def upstream_index : Nat := mbi_index + 1

def thread_pool_size : Nat := 30

/-- One build returned by `koji.listTagged(tag, package=pkg, latest=True)`. -/
structure Build where
  package_name : String
  version : String
deriving DecidableEq, Repr

/-- One entry of `koji.listPackages("jp")`. -/
structure PackageEntry where
  package_name : String
  blocked : Bool
deriving DecidableEq, Repr

/-- Lexicographic comparison of strings by code point (the order Python's
`sorted` uses on `str`). -/
def charListLe : List Char → List Char → Bool
  | [], _ => true
  | _ :: _, [] => false
  | a :: as, b :: bs => if a < b then true else if b < a then false else charListLe as bs

def strLe (a b : String) : Bool := charListLe a.data b.data

/-- Stable insertion step of `sorted`. -/
def insertSorted (a : String) : List String → List String
  | [] => [a]
  | b :: rest => if strLe a b then a :: b :: rest else b :: insertSorted a rest

/-- Python's `sorted` on a list of strings (insertion sort: stable,
ascending). -/
def sortNames (l : List String) : List String := l.foldr insertSorted []

/-- `get_packages` of `pkg-versions.py`: the sorted names of the
non-blocked packages of the MBI Koji instance (the listing itself is the
RPC response, an oracle). -/
def get_packages (listing : List PackageEntry) : List String :=
  sortNames ((listing.filter fun p => !p.blocked).map PackageEntry.package_name)

/-- `get_koji_versions` of `pkg-versions.py`: one `listTagged` multicall per
package; a package with a build is bound (under the build's
`package_name`) to the build's version, then every requested package still
missing is bound to the empty string.  `listTagged` is the RPC oracle,
taking the Koji hub URL, the tag and the package name. -/
def get_koji_versions (listTagged : String → String → String → List Build)
    (package_names : List String) (url : String) (tag : String) :
    List (String × String) :=
  let result := package_names.foldl (fun r pkg =>
    match listTagged url tag pkg with
    | [] => r
    | b :: _ => dinsert r b.package_name b.version) []
  package_names.foldl (fun r pkg =>
    if dcontains r pkg then r else dinsert r pkg "") result

/-- `get_fedora_versions` of `pkg-versions.py`. -/
def get_fedora_versions (listTagged : String → String → String → List Build)
    (package_names : List String) (release : String) : List (String × String) :=
  get_koji_versions listTagged package_names "https://koji.fedoraproject.org/kojihub" release

/-- `get_mbi_versions` of `pkg-versions.py`. -/
def get_mbi_versions (listTagged : String → String → String → List Build)
    (package_names : List String) : List (String × String) :=
  get_koji_versions listTagged package_names "https://koji.kjnet.xyz/kojihub" "jp"

/-! ## `pkg-versions.py`: upstream lookups, thread pool, JSON cache -/

/-- `get_upstream_versions` of `pkg-versions.py`: one
`get_upstream_version` future per package name (the HTTP lookup is the
oracle `g`), futures paired with the names in submission order via `zip`,
results collected into a dictionary. -/
def get_upstream_versions (g : String → String) (package_names : List String) :
    List (String × String) :=
  (package_names.zip (package_names.map g)).foldl
    (fun result p => dinsert result p.1 p.2) []

/-- The parsed content of the JSON cache file. -/
structure CacheFile where
  time_retrieved : Int
  packages : List (String × String)
deriving DecidableEq, Repr

/-- Data written to a file (the HTML report, or the JSON cache object of
`write_json_timestamp` with its `time-retrieved` stamp). -/
inductive FileData where
  | text : String → FileData
  | jsonTimestamp : Int → List (String × String) → FileData
deriving DecidableEq, Repr

/-- `write_json_timestamp` of `pkg-versions.py`, as a file-write event. -/
def write_json_timestamp (filename : String) (now : Int)
    (packages : List (String × String)) : String × FileData :=
  (filename, FileData.jsonTimestamp now packages)

/-- `get_upstream_versions_cached` of `pkg-versions.py`.  The file system
and clock are oracles: `cacheState` is the parsed cache file (or `none`
when the file does not exist), `now` is `time.time()` at the staleness
check and `now2` at the write.  Returns the package map together with the
file-write events performed. -/
def get_upstream_versions_cached (g : String → String) (cacheState : Option CacheFile)
    (now now2 : Int) (cache_path : String) (package_names : List String) :
    List (String × String) × List (String × FileData) :=
  let update_cache : Bool :=
    match cacheState with
    | none => true
    | some cache => decide (now - cache.time_retrieved > upstream_cache_interval)
  let result : List (String × String) :=
    match cacheState with
    | none => []
    | some cache =>
      if now - cache.time_retrieved > upstream_cache_interval then []
      else cache.packages
  if update_cache then
    let r := get_upstream_versions g package_names
    (r, [write_json_timestamp cache_path now2 r])
  else (result, [])

/-! ## `pkg-versions.py`: `normalize_version` -/

/-- The two `str.replace` calls of `normalize_version`
(`"_" → "."` then `"-" → "."`). -/
def replChars (l : List Char) : List Char :=
  (l.map fun c => if c = '_' then '.' else c).map fun c => if c = '-' then '.' else c

/-- A character of the class `[.0-9]`. -/
def isVerChar (c : Char) : Bool := c = '.' || c.isDigit

/-- Truncate `[.0-9]*` material after the last digit: the greedy group
`([.0-9]*[0-9]+)` keeps the class prefix only up to its last digit. -/
def dropTrailNonDigit (l : List Char) : List Char :=
  (l.reverse.dropWhile fun c => !c.isDigit).reverse

/-- `re.match("^[a-zA-Z]$", trailing)` (the argument never contains a
newline, so the end anchor is plain end of string). -/
def isSingleAlpha : List Char → Bool
  | [c] => c.isAlpha
  | _ => false

/-- Head is `.` or `~` (`trailing.startswith((".", "~"))`). -/
def headDotTilde : List Char → Bool
  | c :: _ => c = '.' || c = '~'
  | _ => false

/-- The trailing-mutation block of `normalize_version` (lines 185-199 of
`pkg-versions.py`): keep a single letter, otherwise strip one leading `.`
or `~`, re-prefix with `.` for an `SP` service pack and `~` otherwise, and
replace `-` by `.` (a no-op, `-` was already replaced). -/
def normTrailing (trailing : List Char) : List Char :=
  if isSingleAlpha trailing then trailing
  else
    let t1 :=
      if trailing ≠ [] then
        let t := if headDotTilde trailing then trailing.tail else trailing
        if t.take 2 = "SP".data then '.' :: t else '~' :: t
      else trailing
    t1.map fun c => if c = '-' then '.' else c

/-- `normalize_version` of `pkg-versions.py`.  The regex
`([.0-9]*[0-9]+)(.*)` is matched at the start of the (replaced) version:
group 1 is the longest prefix of `[.0-9]` characters truncated after its
last digit (no digit means no match, i.e. the `BaseException`, `none`
here), and group 2 (`.*`) is the remainder up to a newline. -/
def normalize_version (version : String) : Option String :=
  if version = "" then some ""
  else
    let version_name := replChars version.data
    let P := version_name.takeWhile isVerChar
    if P.any Char.isDigit then
      let leading := dropTrailNonDigit P
      let trailing := (version_name.drop leading.length).takeWhile fun c => c ≠ '\n'
      if trailing = ".Final".data then some (String.mk leading)
      else some (String.mk (leading ++ normTrailing trailing))
    else none

/-! ## `pkg-versions.py`: `get_all_versions` and the report -/

/-- The dict comprehension
`{package: normalize_version(version) for package, version in upstream.items()}`
(`none` when `normalize_version` raises on some value). -/
def normalizeDict : List (String × String) → Option (List (String × String))
  | [] => some []
  | (k, v) :: rest =>
    match normalize_version v with
    | none => none
    | some nv =>
      match normalizeDict rest with
      | none => none
      | some d => some (dinsert d k nv)

/-- The `releases` dictionary of `get_all_versions`: one
`get_fedora_versions` future per Fedora release, futures paired with the
releases in submission order via `zip`. -/
def release_maps (listTagged : String → String → String → List Build)
    (package_names : List String) : List (String × List (String × String)) :=
  (fedora_releases.zip (fedora_releases.map fun release =>
      get_fedora_versions listTagged package_names release)).foldl
    (fun acc p => dinsert acc p.1 p.2) []

/-- The row `get_all_versions` builds for one package: the four Fedora
versions in release order, then the MBI version, then the upstream
version (`none` on `KeyError`). -/
def row_for (rels : List (String × List (String × String)))
    (mbi upstream : List (String × String)) (pkg : String) : Option (List String) :=
  match fedora_releases.foldr (fun release acc =>
      match acc with
      | none => none
      | some vs =>
        match dlookup rels release with
        | none => none
        | some relmap =>
          match dlookup relmap pkg with
          | none => none
          | some v => some (v :: vs)) (some []) with
  | none => none
  | some fvs =>
    match dlookup mbi pkg with
    | none => none
    | some m =>
      match dlookup upstream pkg with
      | none => none
      | some u => some (fvs ++ [m, u])

/-- The final loop of `get_all_versions`, building the result dictionary. -/
def buildRows (rels : List (String × List (String × String)))
    (mbi upstream : List (String × String)) :
    List String → List (String × List String) → Option (List (String × List String))
  | [], acc => some acc
  | pkg :: rest, acc =>
    match row_for rels mbi upstream pkg with
    | none => none
    | some vs => buildRows rels mbi upstream rest (dinsert acc pkg vs)

/-- The oracles `get_all_versions` talks to: the MBI package listing, the
upstream release-monitoring API, the Koji hubs, the cache file and the
clock. -/
structure VOracles where
  listing : List PackageEntry
  upstream : String → String
  listTagged : String → String → String → List Build
  cacheState : Option CacheFile
  now : Int
  now2 : Int

/-- `get_all_versions` of `pkg-versions.py`.  Returns the per-package
version rows together with the cache file-write events; `none` models an
uncaught exception (a `KeyError` on a stale-keyed fresh cache, or a
`normalize_version` failure). -/
def get_all_versions (O : VOracles) :
    Option (List (String × List String) × List (String × FileData)) :=
  let package_names := get_packages O.listing
  let cached := get_upstream_versions_cached O.upstream O.cacheState O.now O.now2
    upstream_cache_path package_names
  match normalizeDict cached.1 with
  | none => none
  | some upstream =>
    let mbi := get_mbi_versions O.listTagged package_names
    let rels := release_maps O.listTagged package_names
    match buildRows rels mbi upstream package_names [] with
    | none => none
    | some result => some (result, cached.2)

/-! ## `pkg-versions.py`: `row_to_str` and the HTML table -/

/-- The assertion guarding `row_to_str`:
`assert(len(versions) == len(releases))`. -/
def row_to_str_assert (versions : List String) : Bool :=
  versions.length == releases.length

/-- The inner while loop of `row_to_str`: advance `fedora_index` while the
next Fedora column holds an equal version (`version_compare == 0`).
`vercmp` is the external `rpm.labelCompare` oracle.  Fuel is
`mbi_index`, enough for the bounded walk. -/
def advanceIdx (vercmp : String → String → Int) (vs : List String) :
    Nat → Nat → Nat
  | 0, i => i
  | fuel + 1, i =>
    if i + 1 < mbi_index && vercmp (vs.getD i "") (vs.getD (i + 1) "") == 0 then
      advanceIdx vercmp vs fuel (i + 1)
    else i

/-- The outer while loop of `row_to_str` over the Fedora columns, emitting
one `<td>` per run of equal versions (with a `colspan` when the run is
longer than one). -/
def fedoraCells (vercmp : String → String → Int) (vs : List String) :
    Nat → Nat → String
  | 0, _ => ""
  | fuel + 1, i =>
    if i < mbi_index then
      let j := advanceIdx vercmp vs mbi_index i
      let colspan := j - i + 1
      "<td " ++
        (if colspan > 1 then "colspan=\"" ++ toString colspan ++ "\" " else "") ++
        "class=\"fedora\">" ++ vs.getD j "" ++ "</td>\n" ++
        fedoraCells vercmp vs fuel (j + 1)
    else ""

/-- `row_to_str` of `pkg-versions.py` (`none` when the assertion fails). -/
def row_to_str (vercmp : String → String → Int) (versions : List String)
    (tags : List (String × String)) : Option String :=
  if row_to_str_assert versions then
    let fedoraPart := fedoraCells vercmp versions mbi_index 0
    let mbiCell := "<td class=\"mbi\">" ++ versions.getD mbi_index "" ++ "</td>\n"
    let compare_value := vercmp (versions.getD mbi_index "") (versions.getD upstream_index "")
    let html_class :=
      if versions.getD upstream_index "" = "" then "unknown-version"
      else
        match dlookup tags "correct_version" with
        | some cv =>
          if vercmp (versions.getD mbi_index "") cv == 0 then "correct_version"
          else if compare_value == 0 then "up-to-date"
          else if compare_value < 0 then "downgrade"
          else if compare_value > 0 then "mbi-newer"
          else "mbi"
        | none =>
          if compare_value == 0 then "up-to-date"
          else if compare_value < 0 then "downgrade"
          else if compare_value > 0 then "mbi-newer"
          else "mbi"
    some (fedoraPart ++ mbiCell ++
      "<td class=\"" ++ html_class ++ "\">" ++ versions.getD upstream_index "" ++ "</td>\n")
  else none

/-- The `<th>` header row written by the main part of `pkg-versions.py`. -/
def tableHeader : String :=
  "<link rel=stylesheet href=mystyle.css>" ++ "<table>\n" ++
  "<th>" ++ "Package name" ++ "</th>" ++
  (releases.foldl (fun acc header_name => acc ++ "<th>" ++ header_name ++ "</th>") "") ++
  "<th>" ++ "Comment" ++ "</th>" ++ "<th>" ++ "Links" ++ "</th>"

/-- One `<tr>` row of the report (`none` on a `KeyError` in the comment or
tag dictionaries, or on the `row_to_str` assertion). -/
def tableRow (vercmp : String → String → Int) (comments_all : List (String × String))
    (tags_all : List (String × List (String × String)))
    (pkg_name : String) (version_list : List String) : Option String :=
  match dlookup tags_all pkg_name with
  | none => none
  | some tags =>
    match row_to_str vercmp version_list tags with
    | none => none
    | some row =>
      match dlookup comments_all pkg_name with
      | none => none
      | some comment =>
        some ("<tr>\n" ++ "<td>" ++ pkg_name ++ "</td>\n" ++ row ++
          "<td>\n" ++ comment ++ "</td>\n" ++
          "<td>\n" ++ "MBI\n" ++
          "(<a href=\"https://src.fedoraproject.org/fork/mbi/rpms/" ++ pkg_name ++
            "\" target=\"_blank\">dist-git</a>)\n" ++
          "(<a href=\"https://koji.kjnet.xyz/koji/packageinfo?packageID=" ++ pkg_name ++
            "\" target=\"_blank\">Koji</a>)\n" ++
          "(<a href=\"https://koschei.kjnet.xyz/koschei/package/" ++ pkg_name ++
            "?collection=jp\" target=\"_blank\">Koschei</a>)\n" ++
          "</td>\n" ++ "</tr>\n")

/-- The full `versions.html` content assembled by the main loop. -/
def render_table (vercmp : String → String → Int)
    (versions_all : List (String × List String))
    (comments_all : List (String × String))
    (tags_all : List (String × List (String × String))) : Option String :=
  match versions_all.foldl (fun acc p =>
      match acc with
      | none => none
      | some s =>
        match tableRow vercmp comments_all tags_all p.1 p.2 with
        | none => none
        | some row => some (s ++ row)) (some tableHeader) with
  | none => none
  | some body => some (body ++ "</table>\n")

/-- The file-write trace of a `pkg-versions.py` run: the cache write (when
the cache was stale or missing) followed by the `versions.html` report.
The comment/tag dictionaries come from `get_comments` (an HTTP fetch of a
markdown file, external) and `rpm.labelCompare` is `vercmp`. -/
def pkg_versions_writes (O : VOracles) (vercmp : String → String → Int)
    (comments_all : List (String × String))
    (tags_all : List (String × List (String × String))) :
    Option (List (String × FileData)) :=
  match get_all_versions O with
  | none => none
  | some (versions_all, cacheWrites) =>
    match render_table vercmp versions_all comments_all tags_all with
    | none => none
    | some table => some (cacheWrites ++ [("versions.html", FileData.text table)])

/-! ## `generate-modulemd.py`: the file-write trace of `work`

After the closure loop, `work` only computes report data (build/runtime
dependency edges, the optional `topo_sort` build order, git refs) that
feeds the Jinja template; the rendering of the template by the external
`jinja2` engine is the oracle `render`, and the single write of
`work` is `open('{}.yaml'.format(module), 'w')`. -/

def work_writes (C : Config) (O : Oracles) (api : Finset String) (fuel : Nat)
    (module : String) (render : LoopState → String) :
    Option (List (String × FileData)) :=
  match work_run C O api fuel with
  | none => none
  | some st => some [(module ++ ".yaml", FileData.text (render st))]

/-! ## Claim C8: includes/excludes override the heuristic in `is_maven_pkg` -/

/-- **C8.** Explicit configuration always overrides the heuristic in
`is_maven_pkg`: a package whose source RPM name is in `includes` is
classified `True`; one whose name is in `excludes` but not in `includes`
is classified `False` (includes wins when a name is in both); only for
packages in neither set does the result depend on the file-path heuristic
(`True` iff some file path starts with `/usr/share/maven-metadata/`,
`/usr/share/java/` or `/usr/lib/java/`). -/
theorem c8_is_maven_pkg_precedence (C : Config) (p : Pkg) (n : String)
    (h : nameOf p.sourcerpm = some n) :
    (n ∈ C.includes → is_maven_pkg C p = some true) ∧
    (n ∉ C.includes → n ∈ C.excludes → is_maven_pkg C p = some false) ∧
    (n ∉ C.includes → n ∉ C.excludes →
      is_maven_pkg C p = some (p.files.any fun file =>
        str_starts_with file "/usr/share/maven-metadata/" ||
        str_starts_with file "/usr/share/java/" ||
        str_starts_with file "/usr/lib/java/")) := by
  unfold is_maven_pkg
  rw [h]
  refine ⟨?_, ?_, ?_⟩ <;> intros <;> simp [*]

/-- Witness for C8 at a concrete package whose source RPM name `a` is in
both `includes` and `excludes`: includes wins. -/
theorem c8_witness :
    nameOf "a-1-1.x.rpm" = some "a" ∧
    "a" ∈ ["a"] ∧
    is_maven_pkg ⟨["a"], ["a"], ∅, false, false⟩ ⟨"a", "a-1-1.x.rpm", []⟩ = some true :=
  ⟨by decide, by decide,
    (c8_is_maven_pkg_precedence ⟨["a"], ["a"], ∅, false, false⟩
      ⟨"a", "a-1-1.x.rpm", []⟩ "a" (by decide)).1 (by decide)⟩

/-! ## Claim C4: resolution is fully delegated to the external resolver -/

/-- **C4.** `resolve_deps` first submits all dependencies as one goal to the
external resolver; when that combined goal resolves, the result is the
resolver's install set (with its Java subset).  When it is unsatisfiable,
`resolve_deps` resolves nothing itself: it re-submits each dependency
individually, and the returned install set is exactly the union of the
installs of the satisfiable individual goals, together with the source
RPMs of the installed packages classified as Java. -/
theorem c4_resolve_deps_delegates (C : Config) (runGoal : Finset String → GoalResult)
    (deps : Finset String) :
    ((runGoal deps).resolved = true →
      resolve_deps C runGoal deps =
        (javaSet C (runGoal deps).installs).map fun java => (java, (runGoal deps).installs)) ∧
    ((runGoal deps).resolved = false →
      ∀ java all, resolve_deps C runGoal deps = some (java, all) →
        (∀ p : Pkg, p ∈ all ↔
          ∃ d ∈ deps, (runGoal {d}).resolved = true ∧ p ∈ (runGoal {d}).installs) ∧
        java = (all.filter fun p => is_maven_pkg C p = some true).image Pkg.sourcerpm) := by
  constructor
  · intro h
    unfold resolve_deps resolve_installs
    rw [if_pos h]
    cases javaSet C (runGoal deps).installs <;> simp
  · intro h java all heq
    unfold resolve_deps at heq
    have hinst : resolve_installs runGoal deps = deps.biUnion fun d =>
        if (runGoal {d}).resolved then (runGoal {d}).installs else ∅ := by
      unfold resolve_installs
      rw [if_neg (by simp [h])]
    cases hjs : javaSet C (resolve_installs runGoal deps) with
    | none => rw [hjs] at heq; exact absurd heq (by simp)
    | some j =>
      rw [hjs] at heq
      simp only [Option.some.injEq, Prod.mk.injEq] at heq
      obtain ⟨hj, hall⟩ := heq
      subst hall
      constructor
      · intro p
        rw [hinst, Finset.mem_biUnion]
        constructor
        · rintro ⟨d, hd, hp⟩
          by_cases hres : (runGoal {d}).resolved = true
          · exact ⟨d, hd, hres, by simpa [hres] using hp⟩
          · simp only [Bool.not_eq_true] at hres
            simp [hres] at hp
        · rintro ⟨d, hd, hres, hp⟩
          exact ⟨d, hd, by simpa [hres] using hp⟩
      · rw [← hj]
        unfold javaSet at hjs
        split at hjs
        · simpa using hjs.symm
        · exact absurd hjs (by simp)

/-- A concrete resolver oracle for the C4 witness: the combined goal
`{a, b}` fails, the individual goal `{a}` resolves to one package and
`{b}` fails. -/
def c4RunGoal : Finset String → GoalResult := fun g =>
  if g = {"a"} then
    ⟨true, [], {⟨"a", "a-1-1.x.rpm", ["/usr/share/java/a.jar"]⟩}⟩
  else ⟨false, ["broken"], ∅⟩

/-- Witness for C4: under `c4RunGoal` the result on the unsatisfiable goal
`{a, b}` is the union of the satisfiable individual installs, with the
Java subset. -/
theorem c4_witness :
    (c4RunGoal {"a", "b"}).resolved = false ∧
    resolve_deps ⟨[], [], ∅, false, false⟩ c4RunGoal {"a", "b"} =
      some ({"a-1-1.x.rpm"}, {⟨"a", "a-1-1.x.rpm", ["/usr/share/java/a.jar"]⟩}) ∧
    ({"a-1-1.x.rpm"} : Finset String) =
      (({⟨"a", "a-1-1.x.rpm", ["/usr/share/java/a.jar"]⟩} : Finset Pkg).filter
        (fun p => is_maven_pkg ⟨[], [], ∅, false, false⟩ p = some true)).image Pkg.sourcerpm := by
  refine ⟨by decide, by decide, ?_⟩
  exact ((c4_resolve_deps_delegates ⟨[], [], ∅, false, false⟩ c4RunGoal {"a", "b"}).2
    (by decide) _ _ (by decide)).2

/-! ## Claim C6: the JSON cache of upstream lookups -/

/-- **C6.** `get_upstream_versions_cached` returns the stored package map,
performing no upstream lookups and no writes, exactly when the cache file
exists and its `time-retrieved` stamp is at most `upstream_cache_interval`
(one hour, 3600 seconds) before the current time — even if the stored keys
differ from the requested names.  Otherwise (missing or stale cache) it
fetches fresh versions for all given names and rewrites the cache file with
the new map and the new timestamp. -/
theorem c6_upstream_cache (g : String → String) (cs : Option CacheFile)
    (now now2 : Int) (path : String) (names : List String) :
    upstream_cache_interval = 3600 ∧
    (∀ c, cs = some c → now - c.time_retrieved ≤ upstream_cache_interval →
      get_upstream_versions_cached g cs now now2 path names = (c.packages, [])) ∧
    (cs = none →
      get_upstream_versions_cached g cs now now2 path names =
        (get_upstream_versions g names,
         [(path, FileData.jsonTimestamp now2 (get_upstream_versions g names))])) ∧
    (∀ c, cs = some c → now - c.time_retrieved > upstream_cache_interval →
      get_upstream_versions_cached g cs now now2 path names =
        (get_upstream_versions g names,
         [(path, FileData.jsonTimestamp now2 (get_upstream_versions g names))])) := by
  refine ⟨rfl, ?_, ?_, ?_⟩
  · rintro c rfl hfresh
    unfold get_upstream_versions_cached
    simp [not_lt.mpr hfresh, write_json_timestamp]
  · rintro rfl
    unfold get_upstream_versions_cached
    simp [write_json_timestamp]
  · rintro c rfl hstale
    unfold get_upstream_versions_cached
    simp [hstale, write_json_timestamp]

/-- Witness for C6: a fresh cache (stamp 1000, clock 1500) is returned
unchanged with no write, whatever its keys. -/
theorem c6_witness :
    (some (CacheFile.mk 1000 [("stale-key", "1")]) = some (CacheFile.mk 1000 [("stale-key", "1")])) ∧
    ((1500 : Int) - 1000 ≤ upstream_cache_interval) ∧
    get_upstream_versions_cached (fun _ => "9") (some (CacheFile.mk 1000 [("stale-key", "1")]))
      1500 1501 upstream_cache_path ["other-key"] = ([("stale-key", "1")], []) :=
  ⟨rfl, by decide,
    (c6_upstream_cache (fun _ => "9") (some (CacheFile.mk 1000 [("stale-key", "1")]))
      1500 1501 upstream_cache_path ["other-key"]).2.1 _ rfl (by decide)⟩

/-! ## Claim C5: thread-pool aggregation binds each key to its own lookup -/

/-- Lookup in a dictionary built by folding `dinsert` over `l.zip (l.map g)`:
every key of `l` is bound to `g` of that key. -/
theorem dlookup_fold_zip {β : Type} (g : String → β) (l : List String)
    (acc : List (String × β)) (n : String) :
    dlookup ((l.zip (l.map g)).foldl (fun r p => dinsert r p.1 p.2) acc) n =
      if n ∈ l then some (g n) else dlookup acc n := by
  induction l generalizing acc with
  | nil => simp
  | cons m l' ih =>
    simp only [List.map_cons, List.zip_cons_cons, List.foldl_cons]
    rw [ih]
    by_cases hmem : n ∈ l'
    · simp [hmem]
    · by_cases hnm : n = m
      · subst hnm
        simp [hmem, dlookup_dinsert_self]
      · simp [hmem, hnm, dlookup_dinsert_ne _ _ _ _ hnm]

/-- **C5.** The thread-pool parallelization is simple result aggregation:
`get_upstream_versions` returns a map whose key set is exactly the given
names, each name bound to its own `get_upstream_version` lookup (futures
paired with names in submission order), and the `releases` map of
`get_all_versions` binds each Fedora release to the result of its own
`get_fedora_versions` call. -/
theorem c5_thread_pool_aggregation :
    (∀ (g : String → String) (names : List String) (n : String),
      dlookup (get_upstream_versions g names) n =
        if n ∈ names then some (g n) else none) ∧
    (∀ (listTagged : String → String → String → List Build) (names : List String)
      (r : String), r ∈ fedora_releases →
      dlookup (release_maps listTagged names) r =
        some (get_fedora_versions listTagged names r)) := by
  constructor
  · intro g names n
    unfold get_upstream_versions
    rw [dlookup_fold_zip]
    rfl
  · intro listTagged names r hr
    unfold release_maps
    rw [dlookup_fold_zip]
    simp [hr]

/-- Witness for C5 at concrete oracles: the name `x` is bound to its own
lookup, a missing name is absent, and `f28` is bound to its own
`get_fedora_versions` call. -/
theorem c5_witness :
    dlookup (get_upstream_versions (fun n => n ++ "!") ["x", "y"]) "x" = some "x!" ∧
    dlookup (get_upstream_versions (fun n => n ++ "!") ["x", "y"]) "z" = none ∧
    "f28" ∈ fedora_releases ∧
    dlookup (release_maps (fun _ _ _ => []) ["x"]) "f28" =
      some (get_fedora_versions (fun _ _ _ => []) ["x"] "f28") := by
  refine ⟨?_, ?_, by decide, ?_⟩
  · rw [c5_thread_pool_aggregation.1]; decide
  · rw [c5_thread_pool_aggregation.1]; decide
  · exact c5_thread_pool_aggregation.2 _ _ _ (by decide)

/-! ## The closure loop: helper lemmas -/

theorem filterTodo_inv (C : Config) (todo ft : Finset String)
    (h : filterTodo C todo = some ft) :
    ft = todo.filter (fun s => notExcluded C s = true) ∧
    ∀ s ∈ todo, (nameOf s).isSome := by
  unfold filterTodo at h
  split at h
  · exact ⟨(Option.some.injEq _ _).mp h.symm, by assumption⟩
  · exact absurd h (by simp)

theorem step_inv (C : Config) (O : Oracles) (st st' : LoopState)
    (h : step C O st = some st') :
    ∃ ft java allp,
      filterTodo C st.srpms_todo = some ft ∧
      resolve_deps C O.runGoal (roundBr C O ft) = some (java, allp) ∧
      st' = ⟨st.srpms_done ∪ ft, (ft ∪ java) \ (st.srpms_done ∪ ft),
             st.pkgs ∪ allp, st.br_map ∪ roundBrMap C O ft⟩ := by
  unfold step at h
  cases hft : filterTodo C st.srpms_todo with
  | none => rw [hft] at h; exact absurd h (by simp)
  | some ft =>
    rw [hft] at h
    dsimp only at h
    cases hres : resolve_deps C O.runGoal (roundBr C O ft) with
    | none => rw [hres] at h; exact absurd h (by simp)
    | some p =>
      obtain ⟨java, allp⟩ := p
      rw [hres] at h
      dsimp only at h
      simp only [Option.some.injEq] at h
      exact ⟨ft, java, allp, rfl, hres, h.symm⟩

theorem step_eq (C : Config) (O : Oracles) (st : LoopState)
    (ft java : Finset String) (allp : Finset Pkg)
    (hft : filterTodo C st.srpms_todo = some ft)
    (hres : resolve_deps C O.runGoal (roundBr C O ft) = some (java, allp)) :
    step C O st = some ⟨st.srpms_done ∪ ft, (ft ∪ java) \ (st.srpms_done ∪ ft),
      st.pkgs ∪ allp, st.br_map ∪ roundBrMap C O ft⟩ := by
  unfold step
  rw [hft]
  dsimp only
  rw [hres]

/-- Unfolding equation of `workLoop` at positive fuel. -/
theorem workLoop_succ (C : Config) (O : Oracles) (fuel : Nat) (st : LoopState) :
    workLoop C O (fuel + 1) st =
      if st.srpms_todo = ∅ then some st
      else
        match step C O st with
        | none => none
        | some st' => workLoop C O fuel st' := rfl

/-- Any state the while loop returns has an empty `srpms_todo`
(the loop condition has just failed). -/
theorem workLoop_final_todo_empty (C : Config) (O : Oracles) :
    ∀ fuel st r, workLoop C O fuel st = some r → r.srpms_todo = ∅ := by
  intro fuel
  induction fuel with
  | zero => intro st r h; exact absurd h (by simp [workLoop])
  | succ n ih =>
    intro st r h
    unfold workLoop at h
    by_cases he : st.srpms_todo = ∅
    · rw [if_pos he] at h
      cases h
      exact he
    · rw [if_neg he] at h
      cases hs : step C O st with
      | none => rw [hs] at h; exact absurd h (by simp)
      | some st' => rw [hs] at h; exact ih st' r h

/-- Newly discovered in-scope SRPMs from `resolve_deps` all have a parsed
source-RPM name that is either included or not excluded (from
`is_maven_pkg` returning `True`). -/
theorem resolve_java_names (C : Config) (runGoal : Finset String → GoalResult)
    (deps java : Finset String) (allp : Finset Pkg)
    (h : resolve_deps C runGoal deps = some (java, allp)) :
    ∀ s ∈ java, ∃ n, nameOf s = some n ∧ (n ∈ C.includes ∨ n ∉ C.excludes) := by
  unfold resolve_deps at h
  cases hjs : javaSet C (resolve_installs runGoal deps) with
  | none => rw [hjs] at h; exact absurd h (by simp)
  | some j =>
    rw [hjs] at h
    simp only [Option.some.injEq, Prod.mk.injEq] at h
    obtain ⟨hj, -⟩ := h
    subst hj
    unfold javaSet at hjs
    split at hjs
    · intro s hs
      simp only [Option.some.injEq] at hjs
      rw [← hjs] at hs
      rw [Finset.mem_image] at hs
      obtain ⟨p, hp, hps⟩ := hs
      rw [Finset.mem_filter] at hp
      obtain ⟨-, hmaven⟩ := hp
      unfold is_maven_pkg at hmaven
      cases hname : nameOf p.sourcerpm with
      | none => rw [hname] at hmaven; exact absurd hmaven (by simp)
      | some n =>
        rw [hname] at hmaven
        dsimp only at hmaven
        refine ⟨n, by rw [← hps, hname], ?_⟩
        by_cases hin : n ∈ C.includes
        · exact Or.inl hin
        · by_cases hex : n ∈ C.excludes
          · rw [if_neg hin, if_pos hex] at hmaven
            exact absurd hmaven (by simp)
          · exact Or.inr hex
    · exact absurd hjs (by simp)

/-! ## Claim C1: the closure loop stops exactly at a fixed point -/

/-- **C1.** One round of the `work` loop filters the round's SRPMs, adds
them to `srpms_done`, resolves the round's dependencies through the
external resolver and classifies the installs via `is_maven_pkg` (inside
`resolve_deps`), and feeds the newly discovered in-scope SRPMs not already
done into the next round; the loop exits at a state exactly when its
`srpms_todo` is empty, i.e. when and only when the round discovered no
in-scope SRPM outside `srpms_done`. -/
theorem c1_closure_fixed_point (C : Config) (O : Oracles) (st : LoopState)
    (fuel : Nat) (ft java : Finset String) (allp : Finset Pkg)
    (hft : filterTodo C st.srpms_todo = some ft)
    (hres : resolve_deps C O.runGoal (roundBr C O ft) = some (java, allp)) :
    step C O st = some ⟨st.srpms_done ∪ ft, (ft ∪ java) \ (st.srpms_done ∪ ft),
      st.pkgs ∪ allp, st.br_map ∪ roundBrMap C O ft⟩ ∧
    (ft ∪ java) \ (st.srpms_done ∪ ft) = java \ (st.srpms_done ∪ ft) ∧
    (st.srpms_todo = ∅ → workLoop C O (fuel + 1) st = some st) ∧
    (st.srpms_todo ≠ ∅ →
      workLoop C O (fuel + 1) st = workLoop C O fuel
        ⟨st.srpms_done ∪ ft, (ft ∪ java) \ (st.srpms_done ∪ ft),
         st.pkgs ∪ allp, st.br_map ∪ roundBrMap C O ft⟩) ∧
    (st.srpms_todo ≠ ∅ →
      (workLoop C O (fuel + 2) st = some ⟨st.srpms_done ∪ ft,
          (ft ∪ java) \ (st.srpms_done ∪ ft),
          st.pkgs ∪ allp, st.br_map ∪ roundBrMap C O ft⟩ ↔
        java ⊆ st.srpms_done ∪ ft)) := by
  have hstep := step_eq C O st ft java allp hft hres
  have hsd : (ft ∪ java) \ (st.srpms_done ∪ ft) = java \ (st.srpms_done ∪ ft) := by
    rw [Finset.union_sdiff_distrib]
    have : ft \ (st.srpms_done ∪ ft) = ∅ := by
      rw [Finset.sdiff_eq_empty_iff_subset]
      exact Finset.subset_union_right
    rw [this, Finset.empty_union]
  refine ⟨hstep, hsd, ?_, ?_, ?_⟩
  · intro he
    rw [workLoop_succ, if_pos he]
  · intro hne
    rw [workLoop_succ, if_neg hne, hstep]
  · intro hne
    constructor
    · intro hloop
      have hempty := workLoop_final_todo_empty C O (fuel + 2) st _ hloop
      simp only at hempty
      rw [hsd, Finset.sdiff_eq_empty_iff_subset] at hempty
      exact hempty
    · intro hsub
      have hempty : (ft ∪ java) \ (st.srpms_done ∪ ft) = ∅ := by
        rw [hsd, Finset.sdiff_eq_empty_iff_subset]
        exact hsub
      show workLoop C O (fuel + 1 + 1) st = _
      rw [workLoop_succ, if_neg hne, hstep]
      show workLoop C O (fuel + 1) _ = _
      rw [workLoop_succ]
      rw [if_pos hempty]

/-- Trivial resolver oracle: every goal resolves with no installs. -/
def emptyGoal : GoalResult := ⟨true, [], ∅⟩

/-- Oracles under which every goal resolves to nothing and Koji returns
nothing. -/
def oraclesTrivial : Oracles := ⟨fun _ => emptyGoal, fun _ => ∅, fun _ => ∅⟩

/-- An unconfigured `Config`: everything empty, no build deps, no closure. -/
def configEmpty : Config := ⟨[], [], ∅, false, false⟩

theorem resolve_trivial (deps : Finset String) :
    resolve_deps configEmpty oraclesTrivial.runGoal deps = some (∅, ∅) := by
  unfold resolve_deps resolve_installs javaSet oraclesTrivial emptyGoal
  simp

/-- Witness for C1 at a concrete state with one seed SRPM and the trivial
resolver: one round is run, it discovers nothing new, and the loop exits
right after the round. -/
theorem c1_witness :
    filterTodo configEmpty ({"a-1-1.x.rpm"} : Finset String) = some {"a-1-1.x.rpm"} ∧
    resolve_deps configEmpty oraclesTrivial.runGoal
      (roundBr configEmpty oraclesTrivial {"a-1-1.x.rpm"}) = some (∅, ∅) ∧
    ({"a-1-1.x.rpm"} : Finset String) ≠ ∅ ∧
    workLoop configEmpty oraclesTrivial 2 ⟨∅, {"a-1-1.x.rpm"}, ∅, ∅⟩ =
      some ⟨∅ ∪ {"a-1-1.x.rpm"}, ({"a-1-1.x.rpm"} ∪ ∅) \ (∅ ∪ {"a-1-1.x.rpm"}),
        ∅ ∪ ∅, ∅ ∪ roundBrMap configEmpty oraclesTrivial {"a-1-1.x.rpm"}⟩ := by
  refine ⟨by decide, by decide, by decide, ?_⟩
  exact ((c1_closure_fixed_point configEmpty oraclesTrivial
      ⟨∅, {"a-1-1.x.rpm"}, ∅, ∅⟩ 0 {"a-1-1.x.rpm"} ∅ ∅
      (by decide) (by decide)).2.2.2.2 (by decide)).mpr (by decide)

/-! ## Claim C2: monotone growth and termination of the closure loop -/

/-- A `notExcluded` test comes with a parsed, non-excluded name. -/
theorem notExcluded_name (C : Config) (s : String) (h : notExcluded C s = true) :
    ∃ n, nameOf s = some n ∧ n ∉ C.excludes := by
  unfold notExcluded at h
  cases hname : nameOf s with
  | none => rw [hname] at h; exact absurd h (by simp)
  | some n =>
    rw [hname] at h
    dsimp only at h
    refine ⟨n, rfl, fun hmem => ?_⟩
    rw [Bool.not_eq_true'] at h
    simp at h
    exact h hmem

/-- When no element of the round's todo set is excluded, the filter keeps
the whole set. -/
theorem filterTodo_all (C : Config) (todo : Finset String)
    (h : ∀ s ∈ todo, notExcluded C s = true) :
    filterTodo C todo = some todo := by
  unfold filterTodo
  rw [if_pos]
  · congr 1
    rw [Finset.filter_eq_self]
    exact h
  · intro s hs
    obtain ⟨n, hn, -⟩ := notExcluded_name C s (h s hs)
    rw [hn]
    rfl

/-- Under disjoint includes/excludes, every SRPM classified as Java by
`resolve_deps` passes the `notExcluded` test of the next round. -/
theorem java_notExcluded (C : Config) (runGoal : Finset String → GoalResult)
    (deps java : Finset String) (allp : Finset Pkg)
    (hincexc : ∀ n ∈ C.includes, n ∉ C.excludes)
    (hres : resolve_deps C runGoal deps = some (java, allp)) :
    ∀ s ∈ java, notExcluded C s = true := by
  intro s hs
  obtain ⟨n, hn, hcase⟩ := resolve_java_names C runGoal deps java allp hres s hs
  have hnex : n ∉ C.excludes := by
    cases hcase with
    | inl hin => exact hincexc n hin
    | inr hnex => exact hnex
  unfold notExcluded
  rw [hn]
  dsimp only
  rw [Bool.not_eq_true']
  rw [← Bool.not_eq_true]
  intro hcon
  exact hnex (by simpa using hcon)

/-- Termination of the closure loop: when includes and excludes are
disjoint, resolution never raises, and every Java set the resolver
classifies lies in the finite universe `U`, the loop starting from a state
whose todo set is in-scope finishes within `(U \ done).card + 1` rounds. -/
theorem workLoop_terminates (C : Config) (O : Oracles) (U : Finset String)
    (hincexc : ∀ n ∈ C.includes, n ∉ C.excludes)
    (hressome : ∀ deps, (resolve_deps C O.runGoal deps).isSome)
    (hU : ∀ deps java allp, resolve_deps C O.runGoal deps = some (java, allp) → java ⊆ U) :
    ∀ k st, (∀ s ∈ st.srpms_todo, notExcluded C s = true) →
      st.srpms_todo ⊆ U → st.srpms_todo ∩ st.srpms_done = ∅ →
      (U \ st.srpms_done).card ≤ k → (workLoop C O (k + 1) st).isSome := by
  intro k
  induction k with
  | zero =>
    intro st hnotex hsub hdisj hcard
    by_cases he : st.srpms_todo = ∅
    · rw [workLoop_succ, if_pos he]
      rfl
    · exfalso
      obtain ⟨x, hx⟩ := Finset.nonempty_iff_ne_empty.mpr he
      have hxU : x ∈ U := hsub hx
      have hxdone : x ∉ st.srpms_done := fun hcon => by
        have : x ∈ st.srpms_todo ∩ st.srpms_done := Finset.mem_inter.mpr ⟨hx, hcon⟩
        rw [hdisj] at this
        exact absurd this (Finset.not_mem_empty x)
      have hxmem : x ∈ U \ st.srpms_done := Finset.mem_sdiff.mpr ⟨hxU, hxdone⟩
      have : 0 < (U \ st.srpms_done).card := Finset.card_pos.mpr ⟨x, hxmem⟩
      omega
  | succ k ih =>
    intro st hnotex hsub hdisj hcard
    by_cases he : st.srpms_todo = ∅
    · rw [workLoop_succ, if_pos he]
      rfl
    · have hft := filterTodo_all C st.srpms_todo hnotex
      cases hres : resolve_deps C O.runGoal (roundBr C O st.srpms_todo) with
      | none =>
        have := hressome (roundBr C O st.srpms_todo)
        rw [hres] at this
        exact absurd this (by simp)
      | some p =>
        obtain ⟨java, allp⟩ := p
        have hstep := step_eq C O st st.srpms_todo java allp hft hres
        set D := st.srpms_done ∪ st.srpms_todo with hD
        have hsd : (st.srpms_todo ∪ java) \ D = java \ D := by
          rw [Finset.union_sdiff_distrib]
          have : st.srpms_todo \ D = ∅ := by
            rw [Finset.sdiff_eq_empty_iff_subset, hD]
            exact Finset.subset_union_right
          rw [this, Finset.empty_union]
        rw [workLoop_succ, if_neg he, hstep]
        dsimp only
        apply ih
        · intro s hs
          dsimp only at hs
          rw [hsd] at hs
          exact java_notExcluded C O.runGoal _ java allp hincexc hres s
            (Finset.mem_sdiff.mp hs).1
        · dsimp only
          rw [hsd]
          exact Finset.Subset.trans (Finset.sdiff_subset)
            (hU _ java allp hres)
        · dsimp only
          rw [hsd]
          exact Finset.sdiff_inter_self _ _
        · dsimp only
          obtain ⟨x, hx⟩ := Finset.nonempty_iff_ne_empty.mpr he
          have hxU : x ∈ U := hsub hx
          have hxdone : x ∉ st.srpms_done := fun hcon => by
            have : x ∈ st.srpms_todo ∩ st.srpms_done := Finset.mem_inter.mpr ⟨hx, hcon⟩
            rw [hdisj] at this
            exact absurd this (Finset.not_mem_empty x)
          have hss : U \ D ⊂ U \ st.srpms_done := by
            rw [Finset.ssubset_iff_of_subset
              (Finset.sdiff_subset_sdiff (Finset.Subset.refl U)
                (by rw [hD]; exact Finset.subset_union_left))]
            refine ⟨x, Finset.mem_sdiff.mpr ⟨hxU, hxdone⟩, fun hcon => ?_⟩
            have : x ∈ D := by rw [hD]; exact Finset.mem_union_right _ hx
            exact absurd this (Finset.mem_sdiff.mp hcon).2
          have := Finset.card_lt_card hss
          omega

/-- **C2 (amended).** Across rounds of the `work` loop, `srpms_done` never
loses an element, and the todo set of every reached state is disjoint from
its done set.  Provided no newly discovered SRPM name is excluded (e.g.
in every round of a run whose `includes` and `excludes` are disjoint),
each round with a non-empty todo set strictly grows `srpms_done`; hence
for any finite universe `U` containing every Java set the resolver
classifies, and a resolver that never raises, the loop terminates within
`|U| + 1` rounds.  (Without the disjointness proviso a round can gain
nothing: see the counterexample, where a seed SRPM whose name is in both
`includes` and `excludes` is filtered away entirely.) -/
theorem c2_amended_monotone_terminating (C : Config) (O : Oracles) (U : Finset String)
    (hincexc : ∀ n ∈ C.includes, n ∉ C.excludes)
    (hressome : ∀ deps, (resolve_deps C O.runGoal deps).isSome)
    (hU : ∀ deps java allp, resolve_deps C O.runGoal deps = some (java, allp) → java ⊆ U) :
    (∀ st st', step C O st = some st' → st.srpms_done ⊆ st'.srpms_done) ∧
    (∀ st st', step C O st = some st' → st'.srpms_todo ∩ st'.srpms_done = ∅) ∧
    (∀ st st', step C O st = some st' → st.srpms_todo ≠ ∅ →
      (∀ s ∈ st.srpms_todo, notExcluded C s = true) →
      st.srpms_todo ∩ st.srpms_done = ∅ →
      st.srpms_done ⊂ st'.srpms_done) ∧
    (∀ api st0, work_init C O api = some st0 →
      (workLoop C O (U.card + 1) st0).isSome) := by
  refine ⟨?_, ?_, ?_, ?_⟩
  · intro st st' hstep
    obtain ⟨ft, java, allp, -, -, hst'⟩ := step_inv C O st st' hstep
    rw [hst']
    exact Finset.subset_union_left
  · intro st st' hstep
    obtain ⟨ft, java, allp, -, -, hst'⟩ := step_inv C O st st' hstep
    rw [hst']
    exact Finset.sdiff_inter_self _ _
  · intro st st' hstep hne hnotex hdisj
    obtain ⟨ft, java, allp, hft, -, hst'⟩ := step_inv C O st st' hstep
    rw [filterTodo_all C st.srpms_todo hnotex] at hft
    have hfteq : ft = st.srpms_todo := by
      simpa using hft.symm
    rw [hst', hfteq]
    rw [Finset.ssubset_iff_of_subset Finset.subset_union_left]
    obtain ⟨x, hx⟩ := Finset.nonempty_iff_ne_empty.mpr hne
    refine ⟨x, Finset.mem_union_right _ hx, fun hcon => ?_⟩
    have : x ∈ st.srpms_todo ∩ st.srpms_done := Finset.mem_inter.mpr ⟨hx, hcon⟩
    rw [hdisj] at this
    exact absurd this (Finset.not_mem_empty x)
  · intro api st0 hinit
    unfold work_init at hinit
    cases hres : resolve_deps C O.runGoal api with
    | none => rw [hres] at hinit; exact absurd hinit (by simp)
    | some p =>
      obtain ⟨java, pkgs⟩ := p
      rw [hres] at hinit
      dsimp only at hinit
      have hst0 : st0 = ⟨∅, java, pkgs, ∅⟩ := by simpa using hinit.symm
      rw [hst0]
      apply workLoop_terminates C O U hincexc hressome hU U.card
      · exact java_notExcluded C O.runGoal api java pkgs hincexc hres
      · exact hU api java pkgs hres
      · exact Finset.inter_empty _
      · rw [Finset.sdiff_empty]

/-- The configuration of the C2 counterexample: the name `a` is in both
`includes` and `excludes`. -/
def c2Config : Config := ⟨["a"], ["a"], ∅, false, false⟩

/-- The resolver of the C2 counterexample: every goal resolves and installs
one package whose source RPM is named `a` (so it is classified Java by the
`includes` entry). -/
def c2BadOracles : Oracles :=
  ⟨fun _ => ⟨true, [], {⟨"a", "a-1-1.x.rpm", []⟩}⟩, fun _ => ∅, fun _ => ∅⟩

/-- The loop state of the C2 counterexample. -/
def c2State : LoopState := ⟨∅, {"a-1-1.x.rpm"}, {⟨"a", "a-1-1.x.rpm", []⟩}, ∅⟩

/-- **C2 is false as stated**: at this concrete state the round's
`srpms_todo` is non-empty and disjoint from `srpms_done`, yet the round
leaves `srpms_done` unchanged (the whole todo set is filtered away by
`excludes`), and the loop — whose resolver only ever returns SRPMs from
the finite universe `{a-1-1.x.rpm}` — reproduces the same state and has
not terminated after five rounds. -/
theorem c2_counterexample :
    c2State.srpms_todo ≠ ∅ ∧
    c2State.srpms_todo ∩ c2State.srpms_done = ∅ ∧
    step c2Config c2BadOracles c2State = some c2State ∧
    c2State.srpms_done = ∅ ∧
    workLoop c2Config c2BadOracles 5 c2State = none := by decide

/-- The C2 loop never terminates, with any amount of fuel (supporting fact
for the counterexample: the state reproduces itself exactly). -/
theorem workLoop_c2_diverges :
    ∀ fuel, workLoop c2Config c2BadOracles fuel c2State = none := by
  intro fuel
  induction fuel with
  | zero => rfl
  | succ n ih =>
    rw [workLoop_succ, if_neg (by decide),
      show step c2Config c2BadOracles c2State = some c2State from by decide]
    exact ih

/-- Witness for the amended C2 at concrete oracles: the empty seed under
the trivial resolver terminates within `|∅| + 1` rounds. -/
theorem c2_witness :
    work_init configEmpty oraclesTrivial ∅ = some ⟨∅, ∅, ∅, ∅⟩ ∧
    (workLoop configEmpty oraclesTrivial ((∅ : Finset String).card + 1)
      ⟨∅, ∅, ∅, ∅⟩).isSome = true := by
  refine ⟨by decide, ?_⟩
  have h := (c2_amended_monotone_terminating configEmpty oraclesTrivial ∅
    (by intro n hn; simp [configEmpty] at hn)
    (fun deps => by rw [resolve_trivial]; rfl)
    (fun deps java allp h => by
      rw [resolve_trivial] at h
      simp only [Option.some.injEq, Prod.mk.injEq] at h
      rw [← h.1])).2.2.2 ∅ ⟨∅, ∅, ∅, ∅⟩ (by decide)
  simpa using h

/-! ## Claim C3: `topo_sort` helper lemmas -/

theorem topo_go_zero (E : α → Finset α) (V : Finset α) (i : Nat) :
    topo_go E 0 V i = if V = ∅ then some ∅ else none := rfl

theorem topo_go_succ (E : α → Finset α) (fuel : Nat) (V : Finset α) (i : Nat) :
    topo_go E (fuel + 1) V i =
      if V = ∅ then some ∅
      else if uSet E V = ∅ then none
      else
        match topo_go E fuel (V \ uSet E V) (i + 1) with
        | none => none
        | some W => some ((uSet E V).image (fun v => (v, i)) ∪ W) := rfl

/-- Every entry of a successful `topo_go` run names a vertex of `V` with a
level at least the starting level. -/
theorem topo_go_mem (E : α → Finset α) :
    ∀ fuel (V : Finset α) i W, topo_go E fuel V i = some W →
      ∀ p ∈ W, p.1 ∈ V ∧ i ≤ p.2 := by
  intro fuel
  induction fuel with
  | zero =>
    intro V i W h p hp
    rw [topo_go_zero] at h
    by_cases hV : V = ∅
    · rw [if_pos hV] at h
      have hW := Option.some.inj h
      rw [← hW] at hp
      exact absurd hp (Finset.not_mem_empty p)
    · rw [if_neg hV] at h
      exact absurd h (by simp)
  | succ fuel ih =>
    intro V i W h p hp
    rw [topo_go_succ] at h
    by_cases hV : V = ∅
    · rw [if_pos hV] at h
      have hW := Option.some.inj h
      rw [← hW] at hp
      exact absurd hp (Finset.not_mem_empty p)
    · rw [if_neg hV] at h
      by_cases hU : uSet E V = ∅
      · rw [if_pos hU] at h
        exact absurd h (by simp)
      · rw [if_neg hU] at h
        cases hrec : topo_go E fuel (V \ uSet E V) (i + 1) with
        | none => rw [hrec] at h; exact absurd h (by simp)
        | some W' =>
          rw [hrec] at h
          dsimp only at h
          have hW := Option.some.inj h
          rw [← hW, Finset.mem_union] at hp
          cases hp with
          | inl himg =>
            rw [Finset.mem_image] at himg
            obtain ⟨v, hv, hvp⟩ := himg
            have hvV : v ∈ V := Finset.filter_subset _ V hv
            rw [← hvp]
            exact ⟨hvV, le_refl i⟩
          | inr hW' =>
            obtain ⟨h1, h2⟩ := ih (V \ uSet E V) (i + 1) W' hrec p hW'
            exact ⟨(Finset.mem_sdiff.mp h1).1, by omega⟩

/-- Every vertex of `V` receives a level in a successful `topo_go` run. -/
theorem topo_go_total (E : α → Finset α) :
    ∀ fuel (V : Finset α) i W, topo_go E fuel V i = some W →
      ∀ v ∈ V, ∃ j, (v, j) ∈ W := by
  intro fuel
  induction fuel with
  | zero =>
    intro V i W h v hv
    rw [topo_go_zero] at h
    by_cases hV : V = ∅
    · rw [hV] at hv
      exact absurd hv (Finset.not_mem_empty v)
    · rw [if_neg hV] at h
      exact absurd h (by simp)
  | succ fuel ih =>
    intro V i W h v hv
    rw [topo_go_succ] at h
    by_cases hV : V = ∅
    · rw [hV] at hv
      exact absurd hv (Finset.not_mem_empty v)
    · rw [if_neg hV] at h
      by_cases hU : uSet E V = ∅
      · rw [if_pos hU] at h
        exact absurd h (by simp)
      · rw [if_neg hU] at h
        cases hrec : topo_go E fuel (V \ uSet E V) (i + 1) with
        | none => rw [hrec] at h; exact absurd h (by simp)
        | some W' =>
          rw [hrec] at h
          dsimp only at h
          have hW := Option.some.inj h
          by_cases hvU : v ∈ uSet E V
          · refine ⟨i, ?_⟩
            rw [← hW, Finset.mem_union]
            exact Or.inl (Finset.mem_image.mpr ⟨v, hvU, rfl⟩)
          · obtain ⟨j, hj⟩ := ih (V \ uSet E V) (i + 1) W' hrec v
              (Finset.mem_sdiff.mpr ⟨hv, hvU⟩)
            refine ⟨j, ?_⟩
            rw [← hW, Finset.mem_union]
            exact Or.inr hj

/-- The level dictionary is functional: one level per vertex. -/
theorem topo_go_functional (E : α → Finset α) :
    ∀ fuel (V : Finset α) i W, topo_go E fuel V i = some W →
      ∀ v j j', (v, j) ∈ W → (v, j') ∈ W → j = j' := by
  intro fuel
  induction fuel with
  | zero =>
    intro V i W h v j j' hj hj'
    rw [topo_go_zero] at h
    by_cases hV : V = ∅
    · rw [if_pos hV] at h
      have hW := Option.some.inj h
      rw [← hW] at hj
      exact absurd hj (Finset.not_mem_empty _)
    · rw [if_neg hV] at h
      exact absurd h (by simp)
  | succ fuel ih =>
    intro V i W h v j j' hj hj'
    rw [topo_go_succ] at h
    by_cases hV : V = ∅
    · rw [if_pos hV] at h
      have hW := Option.some.inj h
      rw [← hW] at hj
      exact absurd hj (Finset.not_mem_empty _)
    · rw [if_neg hV] at h
      by_cases hU : uSet E V = ∅
      · rw [if_pos hU] at h
        exact absurd h (by simp)
      · rw [if_neg hU] at h
        cases hrec : topo_go E fuel (V \ uSet E V) (i + 1) with
        | none => rw [hrec] at h; exact absurd h (by simp)
        | some W' =>
          rw [hrec] at h
          dsimp only at h
          have hW := Option.some.inj h
          rw [← hW, Finset.mem_union] at hj hj'
          have himg : ∀ k, (v, k) ∈ (uSet E V).image (fun v => (v, i)) → k = i ∧ v ∈ uSet E V := by
            intro k hk
            rw [Finset.mem_image] at hk
            obtain ⟨x, hx, hxk⟩ := hk
            have h1 : x = v := congrArg Prod.fst hxk
            have h2 : i = k := congrArg Prod.snd hxk
            exact ⟨h2.symm, h1 ▸ hx⟩
          cases hj with
          | inl h1 =>
            cases hj' with
            | inl h2 => rw [(himg j h1).1, (himg j' h2).1]
            | inr h2 =>
              exfalso
              have hv1 := (himg j h1).2
              have hv2 := (topo_go_mem E fuel _ _ W' hrec _ h2).1
              exact (Finset.mem_sdiff.mp hv2).2 hv1
          | inr h1 =>
            cases hj' with
            | inl h2 =>
              exfalso
              have hv1 := (himg j' h2).2
              have hv2 := (topo_go_mem E fuel _ _ W' hrec _ h1).1
              exact (Finset.mem_sdiff.mp hv2).2 hv1
            | inr h2 => exact ih _ _ W' hrec v j j' h1 h2

/-- Levels strictly increase along dependency edges: if `v` depends on `u`
(within `V`), `u`'s level is below `v`'s. -/
theorem topo_go_edge_lt (E : α → Finset α) :
    ∀ fuel (V : Finset α) i W, topo_go E fuel V i = some W →
      ∀ u v j j', u ∈ V → v ∈ E u → (u, j) ∈ W → (v, j') ∈ W → j < j' := by
  intro fuel
  induction fuel with
  | zero =>
    intro V i W h u v j j' hu hvE hj hj'
    rw [topo_go_zero] at h
    by_cases hV : V = ∅
    · rw [if_pos hV] at h
      have hW := Option.some.inj h
      rw [← hW] at hj
      exact absurd hj (Finset.not_mem_empty _)
    · rw [if_neg hV] at h
      exact absurd h (by simp)
  | succ fuel ih =>
    intro V i W h u v j j' hu hvE hj hj'
    rw [topo_go_succ] at h
    by_cases hV : V = ∅
    · rw [if_pos hV] at h
      have hW := Option.some.inj h
      rw [← hW] at hj
      exact absurd hj (Finset.not_mem_empty _)
    · rw [if_neg hV] at h
      by_cases hU : uSet E V = ∅
      · rw [if_pos hU] at h
        exact absurd h (by simp)
      · rw [if_neg hU] at h
        cases hrec : topo_go E fuel (V \ uSet E V) (i + 1) with
        | none => rw [hrec] at h; exact absurd h (by simp)
        | some W' =>
          rw [hrec] at h
          dsimp only at h
          have hW := Option.some.inj h
          rw [← hW, Finset.mem_union] at hj hj'
          have himg : ∀ x k, (x, k) ∈ (uSet E V).image (fun v => (v, i)) → k = i ∧ x ∈ uSet E V := by
            intro x k hk
            rw [Finset.mem_image] at hk
            obtain ⟨y, hy, hyk⟩ := hk
            have h1 : y = x := congrArg Prod.fst hyk
            have h2 : i = k := congrArg Prod.snd hyk
            exact ⟨h2.symm, h1 ▸ hy⟩
          cases hj' with
          | inl h2 =>
            exfalso
            have hvU := (himg v j' h2).2
            unfold uSet at hvU
            rw [Finset.mem_filter] at hvU
            exact hvU.2 u hu hvE
          | inr h2 =>
            have hj'lb := (topo_go_mem E fuel _ _ W' hrec _ h2).2
            cases hj with
            | inl h1 =>
              have := (himg u j h1).1
              omega
            | inr h1 =>
              have huV' := (topo_go_mem E fuel _ _ W' hrec _ h1).1
              exact ih _ _ W' hrec u v j j' huV' hvE h1 h2

/-- A `none` result exhibits a stuck set: a nonempty subset of `V` whose
every vertex depends on a vertex of the subset. -/
theorem topo_go_none_stuck (E : α → Finset α) :
    ∀ fuel (V : Finset α) i, V.card ≤ fuel → topo_go E fuel V i = none →
      ∃ S, S ⊆ V ∧ S.Nonempty ∧ ∀ v ∈ S, ∃ u ∈ S, v ∈ E u := by
  intro fuel
  induction fuel with
  | zero =>
    intro V i hcard h
    rw [topo_go_zero] at h
    have hV : V = ∅ := Finset.card_eq_zero.mp (by omega)
    rw [if_pos hV] at h
    exact absurd h (by simp)
  | succ fuel ih =>
    intro V i hcard h
    rw [topo_go_succ] at h
    by_cases hV : V = ∅
    · rw [if_pos hV] at h
      exact absurd h (by simp)
    · rw [if_neg hV] at h
      by_cases hU : uSet E V = ∅
      · refine ⟨V, Finset.Subset.refl V, Finset.nonempty_iff_ne_empty.mpr hV, ?_⟩
        intro v hv
        by_contra hcon
        push_neg at hcon
        have : v ∈ uSet E V := by
          rw [uSet, Finset.mem_filter]
          exact ⟨hv, hcon⟩
        rw [hU] at this
        exact absurd this (Finset.not_mem_empty v)
      · rw [if_neg hU] at h
        have hUV : uSet E V ⊆ V := Finset.filter_subset _ _
        have hUne : (uSet E V).Nonempty := Finset.nonempty_iff_ne_empty.mpr hU
        have hlt : (V \ uSet E V).card < V.card :=
          Finset.card_lt_card (Finset.sdiff_ssubset hUV hUne)
        cases hrec : topo_go E fuel (V \ uSet E V) (i + 1) with
        | none =>
          obtain ⟨S, hS1, hS2, hS3⟩ := ih (V \ uSet E V) (i + 1) (by omega) hrec
          exact ⟨S, Finset.Subset.trans hS1 (Finset.sdiff_subset), hS2, hS3⟩
        | some W' =>
          rw [hrec] at h
          exact absurd h (by simp)

omit [DecidableEq α] in
/-- A stuck set yields a cycle: following a dependency inside the set from
any start must revisit a vertex. -/
theorem stuck_hasCycle (E : α → Finset α) (V S : Finset α) (hSV : S ⊆ V)
    (hne : S.Nonempty) (hstuck : ∀ v ∈ S, ∃ u ∈ S, v ∈ E u) : hasCycle E V := by
  have hex : ∀ x : {y // y ∈ S}, ∃ z : {y // y ∈ S}, x.1 ∈ E z.1 := by
    rintro ⟨x, hx⟩
    obtain ⟨u, hu, he⟩ := hstuck x hx
    exact ⟨⟨u, hu⟩, he⟩
  choose f hf using hex
  obtain ⟨x0, hx0⟩ := hne
  have hiter : ∀ k (y : {y // y ∈ S}), 0 < k →
      Relation.TransGen (DepRel E V) y.1 ((f^[k] y)).1 := by
    intro k
    induction k with
    | zero => intro y hy; omega
    | succ k ih =>
      intro y hk
      by_cases hk0 : k = 0
      · subst hk0
        rw [Function.iterate_one]
        exact Relation.TransGen.single ⟨hSV y.2, hSV (f y).2, hf y⟩
      · have h1 := ih y (Nat.pos_of_ne_zero hk0)
        have hstep : DepRel E V ((f^[k] y)).1 ((f^[k + 1] y)).1 := by
          rw [Function.iterate_succ_apply']
          exact ⟨hSV (f^[k] y).2, hSV (f (f^[k] y)).2, hf (f^[k] y)⟩
        exact h1.tail hstep
  have key : ∀ m n, m < n → f^[m] ⟨x0, hx0⟩ = f^[n] ⟨x0, hx0⟩ → hasCycle E V := by
    intro m n hlt heq
    refine ⟨((f^[m] ⟨x0, hx0⟩)).1, ?_⟩
    have h1 := hiter (n - m) (f^[m] ⟨x0, hx0⟩) (by omega)
    rw [← Function.iterate_add_apply, show n - m + m = n from by omega, ← heq] at h1
    exact h1
  obtain ⟨m, n, hmn, heq⟩ :=
    Finite.exists_ne_map_eq_of_infinite (fun k : ℕ => f^[k] ⟨x0, hx0⟩)
  rcases lt_or_gt_of_ne hmn with hlt | hgt
  · exact key m n hlt heq
  · exact key n m hgt heq.symm

/-- Levels strictly decrease backwards along chains of dependencies. -/
theorem transGen_level_lt (V : Finset α) (E : α → Finset α) (W : Finset (α × Nat))
    (hsort : topo_sort V E = some W) :
    ∀ a b, Relation.TransGen (DepRel E V) a b →
      ∀ ja jb, (a, ja) ∈ W → (b, jb) ∈ W → jb < ja := by
  intro a b htg
  induction htg with
  | @single b' hab =>
    intro ja jb hja hjb
    exact topo_go_edge_lt E V.card V 1 W hsort b' a jb ja hab.2.1 hab.2.2 hjb hja
  | @tail b' c' htg hbc ih =>
    intro ja jc hja hjc
    obtain ⟨jb, hjb⟩ := topo_go_total E V.card V 1 W hsort _ hbc.1
    have h1 := topo_go_edge_lt E V.card V 1 W hsort _ _ jc jb hbc.2.1 hbc.2.2 hjc hjb
    have h2 := ih ja jb hja hjb
    omega

/-- A successful sort excludes cycles. -/
theorem some_no_cycle (V : Finset α) (E : α → Finset α) (W : Finset (α × Nat))
    (hsort : topo_sort V E = some W) : ¬ hasCycle E V := by
  rintro ⟨v, htg⟩
  have hvV : v ∈ V := by
    cases htg with
    | single h => exact h.1
    | tail _ h => exact h.2.1
  obtain ⟨j, hj⟩ := topo_go_total E V.card V 1 W hsort v hvV
  exact absurd (transGen_level_lt V E W hsort v v htg j j hj hj) (lt_irrefl j)

/-! ## Claim C3: `topo_sort` returns `None` iff there is a cycle, else a
positive level map respecting the edges -/

/-- **C3.** `topo_sort(V, E)` returns `None` if and only if the dependency
graph restricted to `V` contains a cycle; otherwise it returns a map
defined on exactly the vertices of `V` (every vertex gets exactly one
level, every entry names a vertex of `V`), with positive levels, such that
whenever `v ∈ E[u]` (`v` depends on `u`) for `u, v ∈ V`, the level of `u`
is strictly below the level of `v`. -/
theorem c3_topo_sort_correct (V : Finset α) (E : α → Finset α) :
    (topo_sort V E = none ↔ hasCycle E V) ∧
    (∀ W, topo_sort V E = some W →
      (∀ v ∈ V, ∃ j, (v, j) ∈ W) ∧
      (∀ p ∈ W, p.1 ∈ V ∧ 1 ≤ p.2) ∧
      (∀ v j j', (v, j) ∈ W → (v, j') ∈ W → j = j') ∧
      (∀ u v j j', u ∈ V → v ∈ E u → (u, j) ∈ W → (v, j') ∈ W → j < j')) := by
  constructor
  · constructor
    · intro hnone
      obtain ⟨S, hSV, hne, hstuck⟩ :=
        topo_go_none_stuck E V.card V 1 (le_refl _) hnone
      exact stuck_hasCycle E V S hSV hne hstuck
    · intro hcyc
      cases hs : topo_sort V E with
      | none => rfl
      | some W => exact absurd hcyc (some_no_cycle V E W hs)
  · intro W hs
    exact ⟨topo_go_total E V.card V 1 W hs,
      topo_go_mem E V.card V 1 W hs,
      topo_go_functional E V.card V 1 W hs,
      topo_go_edge_lt E V.card V 1 W hs⟩

/-- Witness for C3 on the two-vertex graph where `1` depends on `0`:
the sort yields levels `0 ↦ 1`, `1 ↦ 2`, and the theorem gives
`W[0] < W[1]`. -/
theorem c3_witness :
    topo_sort ({0, 1} : Finset ℕ) (fun u => if u = 0 then {1} else ∅) =
      some {(0, 1), (1, 2)} ∧
    (0 : ℕ) ∈ ({0, 1} : Finset ℕ) ∧
    (1 : ℕ) ∈ (fun u : ℕ => if u = 0 then ({1} : Finset ℕ) else ∅) 0 ∧
    (1 : ℕ) < 2 := by
  refine ⟨by decide, by decide, by decide, ?_⟩
  exact ((c3_topo_sort_correct ({0, 1} : Finset ℕ)
      (fun u => if u = 0 then {1} else ∅)).2 {(0, 1), (1, 2)} (by decide)).2.2.2
    0 1 1 2 (by decide) (by decide) (by decide) (by decide)

/-! ## Claim C9: `get_all_versions` rows satisfy the `row_to_str` assertion -/

/-- The second fold of `get_koji_versions` (fill missing packages with the
empty string) preserves existing bindings. -/
theorem koji_fill_keeps {r : List (String × String)} (names : List String) (p : String)
    (h : (dlookup r p).isSome) :
    dlookup (names.foldl (fun r pkg => if dcontains r pkg then r else dinsert r pkg "") r) p
      = dlookup r p := by
  induction names generalizing r with
  | nil => rfl
  | cons q rest ih =>
    simp only [List.foldl_cons]
    by_cases hc : dcontains r q
    · rw [if_pos hc]
      exact ih h
    · rw [if_neg hc]
      by_cases hqp : q = p
      · subst hqp
        exfalso
        unfold dcontains at hc
        exact hc h
      · have hkeep : dlookup (dinsert r q "") p = dlookup r p :=
          dlookup_dinsert_ne r q p "" (fun hh => hqp hh.symm)
        rw [ih (by rw [hkeep]; exact h), hkeep]

/-- The second fold of `get_koji_versions` binds a missing requested
package to the empty string. -/
theorem koji_fill_missing {r : List (String × String)} (names : List String) (p : String)
    (hmem : p ∈ names) (h : dlookup r p = none) :
    dlookup (names.foldl (fun r pkg => if dcontains r pkg then r else dinsert r pkg "") r) p
      = some "" := by
  induction names generalizing r with
  | nil => exact absurd hmem (List.not_mem_nil p)
  | cons q rest ih =>
    simp only [List.foldl_cons]
    by_cases hqp : q = p
    · subst hqp
      have hc : ¬ dcontains r q := by
        unfold dcontains
        rw [h]
        simp
      rw [if_neg hc]
      have : dlookup (dinsert r q "") q = some "" := dlookup_dinsert_self r q ""
      rw [koji_fill_keeps rest q (by rw [this]; rfl), this]
    · have hrest : p ∈ rest := by
        cases List.mem_cons.mp hmem with
        | inl heq => exact absurd heq.symm hqp
        | inr hr => exact hr
      by_cases hc : dcontains r q
      · rw [if_pos hc]
        exact ih hrest h
      · rw [if_neg hc]
        exact ih hrest (by
          rw [dlookup_dinsert_ne r q p "" (fun hh => hqp hh.symm)]
          exact h)

/-- Every requested package is bound in a `get_koji_versions` result. -/
theorem koji_lookup_isSome (listTagged : String → String → String → List Build)
    (names : List String) (url tag : String) (p : String) (hmem : p ∈ names) :
    (dlookup (get_koji_versions listTagged names url tag) p).isSome := by
  unfold get_koji_versions
  cases hr : dlookup (names.foldl (fun r pkg =>
      match listTagged url tag pkg with
      | [] => r
      | b :: _ => dinsert r b.package_name b.version) []) p with
  | some v =>
    rw [koji_fill_keeps names p (by rw [hr]; rfl), hr]
    rfl
  | none =>
    rw [koji_fill_missing names p hmem hr]
    rfl

/-- With a well-formed `listTagged` oracle (each returned build names the
requested package), a package with no tagged build stays unbound in the
first fold of `get_koji_versions`. -/
theorem koji_first_fold_none (listTagged : String → String → String → List Build)
    (url tag : String) (p : String)
    (hwf : ∀ q b, b ∈ listTagged url tag q → b.package_name = q)
    (hempty : listTagged url tag p = []) :
    ∀ (names : List String) (r : List (String × String)), dlookup r p = none →
      dlookup (names.foldl (fun r pkg =>
        match listTagged url tag pkg with
        | [] => r
        | b :: _ => dinsert r b.package_name b.version) r) p = none := by
  intro names
  induction names with
  | nil => intro r h; exact h
  | cons q rest ih =>
    intro r h
    simp only [List.foldl_cons]
    cases hq : listTagged url tag q with
    | nil => exact ih r h
    | cons b bs =>
      have hbq : b.package_name = q := hwf q b (by rw [hq]; exact List.mem_cons_self b bs)
      by_cases hqp : q = p
      · subst hqp
        rw [hq] at hempty
        exact absurd hempty (by simp)
      · apply ih
        show dlookup (dinsert r b.package_name b.version) p = none
        rw [hbq, dlookup_dinsert_ne r q p _ (fun hh => hqp hh.symm)]
        exact h

/-- A requested package with no tagged build is bound to the empty string
by `get_koji_versions` (under a well-formed oracle). -/
theorem koji_no_build_empty (listTagged : String → String → String → List Build)
    (names : List String) (url tag : String) (p : String)
    (hwf : ∀ q b, b ∈ listTagged url tag q → b.package_name = q)
    (hmem : p ∈ names) (hempty : listTagged url tag p = []) :
    dlookup (get_koji_versions listTagged names url tag) p = some "" := by
  unfold get_koji_versions
  exact koji_fill_missing names p hmem
    (koji_first_fold_none listTagged url tag p hwf hempty names [] rfl)

/-- Shape of a successful `row_for`: exactly the four Fedora versions in
release order, then MBI, then upstream. -/
theorem row_for_shape (rels : List (String × List (String × String)))
    (mbi upstream : List (String × String)) (p : String) (vs : List String)
    (h : row_for rels mbi upstream p = some vs) :
    ∃ r28 r29 r30 r31 v1 v2 v3 v4 m u,
      vs = [v1, v2, v3, v4, m, u] ∧
      dlookup rels "f28" = some r28 ∧ dlookup r28 p = some v1 ∧
      dlookup rels "f29" = some r29 ∧ dlookup r29 p = some v2 ∧
      dlookup rels "f30" = some r30 ∧ dlookup r30 p = some v3 ∧
      dlookup rels "f31" = some r31 ∧ dlookup r31 p = some v4 ∧
      dlookup mbi p = some m ∧ dlookup upstream p = some u := by
  unfold row_for at h
  simp only [fedora_releases, List.foldr_cons, List.foldr_nil] at h
  cases h31 : dlookup rels "f31" with
  | none => rw [h31] at h; exact absurd h (by simp)
  | some r31 =>
  rw [h31] at h
  dsimp only at h
  cases hv4 : dlookup r31 p with
  | none => rw [hv4] at h; exact absurd h (by simp)
  | some v4 =>
  rw [hv4] at h
  dsimp only at h
  cases h30 : dlookup rels "f30" with
  | none => rw [h30] at h; exact absurd h (by simp)
  | some r30 =>
  rw [h30] at h
  dsimp only at h
  cases hv3 : dlookup r30 p with
  | none => rw [hv3] at h; exact absurd h (by simp)
  | some v3 =>
  rw [hv3] at h
  dsimp only at h
  cases h29 : dlookup rels "f29" with
  | none => rw [h29] at h; exact absurd h (by simp)
  | some r29 =>
  rw [h29] at h
  dsimp only at h
  cases hv2 : dlookup r29 p with
  | none => rw [hv2] at h; exact absurd h (by simp)
  | some v2 =>
  rw [hv2] at h
  dsimp only at h
  cases h28 : dlookup rels "f28" with
  | none => rw [h28] at h; exact absurd h (by simp)
  | some r28 =>
  rw [h28] at h
  dsimp only at h
  cases hv1 : dlookup r28 p with
  | none => rw [hv1] at h; exact absurd h (by simp)
  | some v1 =>
  rw [hv1] at h
  dsimp only at h
  cases hm : dlookup mbi p with
  | none => rw [hm] at h; exact absurd h (by simp)
  | some m =>
  rw [hm] at h
  dsimp only at h
  cases hu : dlookup upstream p with
  | none => rw [hu] at h; exact absurd h (by simp)
  | some u =>
  rw [hu] at h
  dsimp only at h
  refine ⟨r28, r29, r30, r31, v1, v2, v3, v4, m, u, ?_, rfl, hv1, rfl, hv2, rfl, hv3, rfl, hv4, rfl, rfl⟩
  exact (Option.some.inj h).symm

/-- Every binding of a `buildRows` result comes from its own `row_for`. -/
theorem buildRows_mem (rels : List (String × List (String × String)))
    (mbi upstream : List (String × String)) :
    ∀ (names : List String) (acc res : List (String × List String)),
      buildRows rels mbi upstream names acc = some res →
      ∀ p vs, (p, vs) ∈ res → (p, vs) ∈ acc ∨ row_for rels mbi upstream p = some vs := by
  intro names
  induction names with
  | nil =>
    intro acc res h p vs hmem
    unfold buildRows at h
    exact Or.inl ((Option.some.inj h) ▸ hmem)
  | cons q rest ih =>
    intro acc res h p vs hmem
    unfold buildRows at h
    cases hq : row_for rels mbi upstream q with
    | none => rw [hq] at h; exact absurd h (by simp)
    | some vq =>
      rw [hq] at h
      cases ih (dinsert acc q vq) res h p vs hmem with
      | inl hacc =>
        cases mem_dinsert acc q vq (p, vs) hacc with
        | inl heq =>
          have hp : p = q := congrArg Prod.fst heq
          have hv : vs = vq := congrArg Prod.snd heq
          rw [hp, hv]
          exact Or.inr hq
        | inr hmem' => exact Or.inl hmem'
      | inr hrow => exact Or.inr hrow

/-- Inversion of `get_all_versions`. -/
theorem get_all_versions_inv (O : VOracles) (res : List (String × List String))
    (cw : List (String × FileData)) (h : get_all_versions O = some (res, cw)) :
    cw = (get_upstream_versions_cached O.upstream O.cacheState O.now O.now2
        upstream_cache_path (get_packages O.listing)).2 ∧
    ∃ upstream,
      normalizeDict (get_upstream_versions_cached O.upstream O.cacheState O.now O.now2
        upstream_cache_path (get_packages O.listing)).1 = some upstream ∧
      buildRows (release_maps O.listTagged (get_packages O.listing))
        (get_mbi_versions O.listTagged (get_packages O.listing)) upstream
        (get_packages O.listing) [] = some res := by
  unfold get_all_versions at h
  dsimp only at h
  cases hn : normalizeDict (get_upstream_versions_cached O.upstream O.cacheState O.now O.now2
      upstream_cache_path (get_packages O.listing)).1 with
  | none => rw [hn] at h; exact absurd h (by simp)
  | some upstream =>
    rw [hn] at h
    dsimp only at h
    cases hb : buildRows (release_maps O.listTagged (get_packages O.listing))
        (get_mbi_versions O.listTagged (get_packages O.listing)) upstream
        (get_packages O.listing) [] with
    | none => rw [hb] at h; exact absurd h (by simp)
    | some result =>
      rw [hb] at h
      dsimp only at h
      have hpair := Option.some.inj h
      have h1 : result = res := congrArg Prod.fst hpair
      have h2 := congrArg Prod.snd hpair
      dsimp only at h2
      exact ⟨h2.symm, upstream, rfl, by rw [← h1]; exact hb⟩

/-- **C9.** Every row the main loop passes to `row_to_str` satisfies its
assertion: whenever `get_all_versions` returns, each returned package is
bound to a list of exactly `len(releases) = 6` defined version strings,
ordered `f28, f29, f30, f31, mbi, upstream` (each of the first five the
value of the corresponding per-release Koji map at that package), so
`assert len(versions) == len(releases)` in `row_to_str` holds on it;
moreover `get_koji_versions` binds each requested package with no tagged
build (under a well-formed Koji oracle) to the empty string. -/
theorem c9_rows_satisfy_assert :
    (∀ (listTagged : String → String → String → List Build) (names : List String)
      (url tag p : String),
      (∀ q b, b ∈ listTagged url tag q → b.package_name = q) →
      p ∈ names → listTagged url tag p = [] →
      dlookup (get_koji_versions listTagged names url tag) p = some "") ∧
    (∀ (O : VOracles) res cw, get_all_versions O = some (res, cw) →
      ∀ p vs, (p, vs) ∈ res →
        vs.length = releases.length ∧
        releases.length = 6 ∧
        row_to_str_assert vs = true ∧
        ∃ v1 v2 v3 v4 m u,
          vs = [v1, v2, v3, v4, m, u] ∧
          dlookup (get_fedora_versions O.listTagged (get_packages O.listing) "f28") p = some v1 ∧
          dlookup (get_fedora_versions O.listTagged (get_packages O.listing) "f29") p = some v2 ∧
          dlookup (get_fedora_versions O.listTagged (get_packages O.listing) "f30") p = some v3 ∧
          dlookup (get_fedora_versions O.listTagged (get_packages O.listing) "f31") p = some v4 ∧
          dlookup (get_mbi_versions O.listTagged (get_packages O.listing)) p = some m) := by
  constructor
  · exact koji_no_build_empty
  · intro O res cw h p vs hmem
    obtain ⟨-, upstream, -, hbuild⟩ := get_all_versions_inv O res cw h
    cases buildRows_mem _ _ _ _ [] res hbuild p vs hmem with
    | inl habs => exact absurd habs (List.not_mem_nil _)
    | inr hrow =>
      obtain ⟨r28, r29, r30, r31, v1, v2, v3, v4, m, u, hvs, h28, hv1, h29, hv2,
        h30, hv3, h31, hv4, hm, -⟩ := row_for_shape _ _ _ p vs hrow
      have hrel : ∀ rel, rel ∈ fedora_releases →
          dlookup (release_maps O.listTagged (get_packages O.listing)) rel =
            some (get_fedora_versions O.listTagged (get_packages O.listing) rel) := by
        intro rel hrelmem
        unfold release_maps
        rw [dlookup_fold_zip]
        simp [hrelmem]
      have e28 := hrel "f28" (by decide)
      have e29 := hrel "f29" (by decide)
      have e30 := hrel "f30" (by decide)
      have e31 := hrel "f31" (by decide)
      rw [e28] at h28
      rw [e29] at h29
      rw [e30] at h30
      rw [e31] at h31
      refine ⟨by rw [hvs]; rfl, rfl, by rw [hvs]; rfl,
        v1, v2, v3, v4, m, u, hvs, ?_, ?_, ?_, ?_, hm⟩
      · rw [Option.some.inj h28]; exact hv1
      · rw [Option.some.inj h29]; exact hv2
      · rw [Option.some.inj h30]; exact hv3
      · rw [Option.some.inj h31]; exact hv4

/-- The oracles of the C9/C7 witnesses: one unblocked package `p`,
upstream version `1.0`, no tagged builds anywhere, no cache file. -/
def vOraclesW : VOracles :=
  ⟨[⟨"p", false⟩], fun _ => "1.0", fun _ _ _ => [], none, 10000, 10001⟩

/-- Witness for C9 at the concrete oracles: the single row is
`["", "", "", "", "", "1.0"]`, of length `len(releases) = 6`, and a
package with no tagged build is bound to the empty string. -/
theorem c9_witness :
    get_all_versions vOraclesW =
      some ([("p", ["", "", "", "", "", "1.0"])],
        [(upstream_cache_path, FileData.jsonTimestamp 10001 [("p", "1.0")])]) ∧
    ("p", ["", "", "", "", "", "1.0"]) ∈ [("p", ["", "", "", "", "", "1.0"])] ∧
    (["", "", "", "", "", "1.0"] : List String).length = releases.length ∧
    row_to_str_assert ["", "", "", "", "", "1.0"] = true ∧
    dlookup (get_koji_versions (fun _ _ _ => []) ["p"] "u" "t") "p" = some "" := by
  refine ⟨by decide, by decide, ?_, ?_, ?_⟩
  · exact (c9_rows_satisfy_assert.2 vOraclesW [("p", ["", "", "", "", "", "1.0"])]
      [(upstream_cache_path, FileData.jsonTimestamp 10001 [("p", "1.0")])] (by decide)
      "p" ["", "", "", "", "", "1.0"] (by decide)).1
  · exact (c9_rows_satisfy_assert.2 vOraclesW [("p", ["", "", "", "", "", "1.0"])]
      [(upstream_cache_path, FileData.jsonTimestamp 10001 [("p", "1.0")])] (by decide)
      "p" ["", "", "", "", "", "1.0"] (by decide)).2.2.1
  · exact c9_rows_satisfy_assert.1 (fun _ _ _ => []) ["p"] "u" "t" "p"
      (by intro q b hb; exact absurd hb (List.not_mem_nil b)) (by decide) rfl

/-! ## Claim C7: a single report file per run -/

/-- Every file-write event of `get_upstream_versions_cached` targets the
cache path it was given. -/
theorem cache_writes_path (g : String → String) (cs : Option CacheFile)
    (now now2 : Int) (path : String) (names : List String) :
    ∀ w ∈ (get_upstream_versions_cached g cs now now2 path names).2, w.1 = path := by
  intro w hw
  unfold get_upstream_versions_cached at hw
  dsimp only at hw
  split at hw
  · simp only [write_json_timestamp, List.mem_singleton] at hw
    rw [hw]
  · exact absurd hw (List.not_mem_nil w)

/-- Filtering a list of writes that all target `path` by "not `path`"
leaves nothing. -/
theorem filter_ne_path_nil (path : String) (l : List (String × FileData))
    (h : ∀ w ∈ l, w.1 = path) :
    l.filter (fun w => w.1 != path) = [] := by
  induction l with
  | nil => rfl
  | cons w rest ih =>
    have hw : w.1 = path := h w (List.mem_cons_self w rest)
    have : (w.1 != path) = false := by
      rw [hw]
      simp
    rw [List.filter_cons, this]
    simp only [Bool.false_eq_true, if_false]
    exact ih (fun x hx => h x (List.mem_cons_of_mem w hx))

/-- **C7.** Each run produces a single report artifact.
`generate-modulemd.py`'s `work` writes exactly one file, named
`<module>.yaml` (holding the rendered template); a `pkg-versions.py` run
writes exactly one report file, `versions.html` (holding the rendered
comparison table) — its only other write is the JSON cache at
`upstream_cache_path`, which is not a report file. -/
theorem c7_single_report_file :
    (∀ (C : Config) (O : Oracles) (api : Finset String) (fuel : Nat)
      (module : String) (render : LoopState → String) ws,
      work_writes C O api fuel module render = some ws →
      ws.map Prod.fst = [module ++ ".yaml"] ∧
      ∃ st, work_run C O api fuel = some st ∧
        ws = [(module ++ ".yaml", FileData.text (render st))]) ∧
    (∀ (O : VOracles) (vercmp : String → String → Int)
      (comments_all : List (String × String))
      (tags_all : List (String × List (String × String))) ws,
      pkg_versions_writes O vercmp comments_all tags_all = some ws →
      (ws.filter (fun w => w.1 != upstream_cache_path)).map Prod.fst = ["versions.html"] ∧
      ∀ w ∈ ws, w.1 = "versions.html" ∨ w.1 = upstream_cache_path) := by
  constructor
  · intro C O api fuel module render ws h
    unfold work_writes at h
    cases hrun : work_run C O api fuel with
    | none => rw [hrun] at h; exact absurd h (by simp)
    | some st =>
      rw [hrun] at h
      dsimp only at h
      have hws := Option.some.inj h
      rw [← hws]
      exact ⟨rfl, st, rfl, rfl⟩
  · intro O vercmp comments_all tags_all ws h
    unfold pkg_versions_writes at h
    cases hall : get_all_versions O with
    | none => rw [hall] at h; exact absurd h (by simp)
    | some p =>
      obtain ⟨versions_all, cacheWrites⟩ := p
      rw [hall] at h
      dsimp only at h
      cases htab : render_table vercmp versions_all comments_all tags_all with
      | none => rw [htab] at h; exact absurd h (by simp)
      | some table =>
        rw [htab] at h
        dsimp only at h
        have hws := Option.some.inj h
        have hcache : ∀ w ∈ cacheWrites, w.1 = upstream_cache_path := by
          have hinv := get_all_versions_inv O versions_all cacheWrites hall
          intro w hw
          rw [hinv.1] at hw
          exact cache_writes_path O.upstream O.cacheState O.now O.now2
            upstream_cache_path (get_packages O.listing) w hw
        constructor
        · rw [← hws, List.filter_append, filter_ne_path_nil upstream_cache_path _ hcache,
            List.nil_append]
          rfl
        · intro w hw
          rw [← hws] at hw
          cases List.mem_append.mp hw with
          | inl hc => exact Or.inr (hcache w hc)
          | inr hh =>
            rw [List.mem_singleton] at hh
            rw [hh]
            exact Or.inl rfl

/-- Witness for C7: a concrete `work` run writes exactly `maven.yaml`, and
a concrete `pkg-versions` run's only report file is `versions.html`
(alongside the cache write). -/
theorem c7_witness :
    work_writes configEmpty oraclesTrivial ∅ 1 "maven" (fun _ => "YAML") =
      some [("maven.yaml", FileData.text "YAML")] ∧
    (work_writes configEmpty oraclesTrivial ∅ 1 "maven" (fun _ => "YAML")).map
      (fun ws => ws.map Prod.fst) = some ["maven.yaml"] ∧
    (pkg_versions_writes vOraclesW (fun _ _ => 0) [("p", "")] [("p", [])]).map
      (fun ws => (ws.filter (fun w => w.1 != upstream_cache_path)).map Prod.fst) =
      some ["versions.html"] := by
  refine ⟨by decide, ?_, ?_⟩
  · cases hw : work_writes configEmpty oraclesTrivial ∅ 1 "maven" (fun _ => "YAML") with
    | none => exact absurd hw (by decide)
    | some ws =>
      rw [Option.map_some']
      exact congrArg some
        ((c7_single_report_file.1 configEmpty oraclesTrivial ∅ 1 "maven"
          (fun _ => "YAML") ws hw).1)
  · cases hw : pkg_versions_writes vOraclesW (fun _ _ => 0) [("p", "")] [("p", [])] with
    | none => exact absurd hw (by decide)
    | some ws =>
      rw [Option.map_some']
      exact congrArg some
        ((c7_single_report_file.2 vOraclesW (fun _ _ => 0) [("p", "")] [("p", [])] ws hw).1)

/-! ## Claim C10: helper lemmas about `normalize_version`'s pieces -/

theorem mem_replChars (l : List Char) : ∀ c ∈ replChars l, c ≠ '_' ∧ c ≠ '-' := by
  intro c hc
  unfold replChars at hc
  rw [List.mem_map] at hc
  obtain ⟨b, hb, hbc⟩ := hc
  rw [List.mem_map] at hb
  obtain ⟨a, -, hab⟩ := hb
  by_cases hbd : b = '-'
  · rw [if_pos hbd] at hbc
    rw [← hbc]
    exact ⟨by decide, by decide⟩
  · rw [if_neg hbd] at hbc
    subst hbc
    refine ⟨?_, hbd⟩
    intro hbu
    subst hbu
    by_cases hau : a = '_'
    · rw [if_pos hau] at hab
      exact absurd hab (by decide)
    · rw [if_neg hau] at hab
      exact hau hab

theorem map_dash_id (l : List Char) (h : ∀ c ∈ l, c ≠ '-') :
    (l.map fun c => if c = '-' then '.' else c) = l := by
  induction l with
  | nil => rfl
  | cons a rest ih =>
    rw [List.map_cons, if_neg (h a (List.mem_cons_self a rest)),
      ih (fun c hc => h c (List.mem_cons_of_mem a hc))]

theorem replChars_id (l : List Char) (h : ∀ c ∈ l, c ≠ '_' ∧ c ≠ '-') :
    replChars l = l := by
  unfold replChars
  have h1 : (l.map fun c => if c = '_' then '.' else c) = l := by
    induction l with
    | nil => rfl
    | cons a rest ih =>
      rw [List.map_cons, if_neg (h a (List.mem_cons_self a rest)).1,
        ih (fun c hc => h c (List.mem_cons_of_mem a hc))]
  rw [h1]
  exact map_dash_id l (fun c hc => (h c hc).2)

theorem takeWhile_append_all (p : Char → Bool) (l1 l2 : List Char)
    (h : ∀ c ∈ l1, p c = true) :
    (l1 ++ l2).takeWhile p = l1 ++ l2.takeWhile p := by
  induction l1 with
  | nil => rfl
  | cons a rest ih =>
    rw [List.cons_append, List.takeWhile_cons, if_pos (h a (List.mem_cons_self a rest)),
      ih (fun c hc => h c (List.mem_cons_of_mem a hc)), List.cons_append]

theorem takeWhile_all_eq (p : Char → Bool) (l : List Char) (h : ∀ c ∈ l, p c = true) :
    l.takeWhile p = l := by
  have := takeWhile_append_all p l [] h
  simpa using this

theorem dropWhile_head_false (p : Char → Bool) :
    ∀ (l : List Char) c rest, l.dropWhile p = c :: rest → p c = false := by
  intro l
  induction l with
  | nil => intro c rest h; exact absurd h (by simp)
  | cons a as ih =>
    intro c rest h
    rw [List.dropWhile_cons] at h
    by_cases hp : p a
    · rw [if_pos hp] at h
      exact ih c rest h
    · rw [if_neg hp] at h
      have : a = c := (List.cons.injEq a as c rest).mp h |>.1
      rw [← this]
      exact Bool.not_eq_true _ ▸ hp

theorem dropTrail_shape (P : List Char) (h : P.any Char.isDigit = true) :
    ∃ l0 d, dropTrailNonDigit P = l0 ++ [d] ∧ d.isDigit = true ∧
      ∀ c ∈ dropTrailNonDigit P, c ∈ P := by
  unfold dropTrailNonDigit
  have hmem : ∀ c ∈ (P.reverse.dropWhile fun c => !c.isDigit).reverse, c ∈ P := by
    intro c hc
    rw [List.mem_reverse] at hc
    have hsub : List.Sublist (P.reverse.dropWhile (fun c => !c.isDigit)) P.reverse :=
      List.dropWhile_sublist _
    have := hsub.mem hc
    rw [List.mem_reverse] at this
    exact this
  cases hD : P.reverse.dropWhile (fun c => !c.isDigit) with
  | nil =>
    exfalso
    rw [List.dropWhile_eq_nil_iff] at hD
    obtain ⟨x, hx, hxd⟩ := List.any_eq_true.mp h
    have := hD x (List.mem_reverse.mpr hx)
    rw [hxd] at this
    exact absurd this (by decide)
  | cons d rest =>
    have hd : d.isDigit = true := by
      have := dropWhile_head_false (fun c => !c.isDigit) P.reverse d rest hD
      simpa using this
    refine ⟨rest.reverse, d, ?_, hd, ?_⟩
    · rw [List.reverse_cons]
    · rw [← hD]
      exact hmem

theorem dropTrail_of_last_digit (l0 : List Char) (d : Char) (hd : d.isDigit = true) :
    dropTrailNonDigit (l0 ++ [d]) = l0 ++ [d] := by
  unfold dropTrailNonDigit
  rw [List.reverse_append, List.reverse_singleton, List.singleton_append,
    List.dropWhile_cons, if_neg (by rw [hd]; decide), List.reverse_cons,
    List.reverse_reverse]

theorem dropTrail_dot (l0 : List Char) (d : Char) (hd : d.isDigit = true) :
    dropTrailNonDigit ((l0 ++ [d]) ++ ['.']) = l0 ++ [d] := by
  unfold dropTrailNonDigit
  rw [List.reverse_append, List.reverse_singleton, List.singleton_append,
    List.dropWhile_cons, if_pos (by decide), List.reverse_append,
    List.reverse_singleton, List.singleton_append, List.dropWhile_cons,
    if_neg (by rw [hd]; decide), List.reverse_cons, List.reverse_reverse]

theorem isVerChar_no_special (c : Char) (h : isVerChar c = true) :
    c ≠ '_' ∧ c ≠ '-' ∧ c ≠ '\n' := by
  refine ⟨fun he => ?_, fun he => ?_, fun he => ?_⟩ <;>
    (subst he; exact absurd h (by decide))

theorem alpha_not_digit (c : Char) (hA : c.isAlpha = true) : c.isDigit = false := by
  rw [← Bool.not_eq_true]
  intro hD
  simp only [Char.isAlpha, Char.isUpper, Char.isLower, Char.isDigit, Bool.or_eq_true,
    Bool.and_eq_true, decide_eq_true_eq] at hA hD
  obtain ⟨h0, h9⟩ := hD
  have h9' : c.val.toNat ≤ 57 := h9
  cases hA with
  | inl h =>
    have h1 : 65 ≤ c.val.toNat := h.1
    omega
  | inr h =>
    have h1 : 97 ≤ c.val.toNat := h.1
    omega

theorem alpha_not_verChar (c : Char) (h : c.isAlpha = true) : isVerChar c = false := by
  unfold isVerChar
  rw [alpha_not_digit c h, Bool.or_false]
  rw [decide_eq_false_iff_not]
  intro he
  subst he
  exact absurd h (by decide)

theorem isSingleAlpha_eq (T : List Char) (h : isSingleAlpha T = true) :
    ∃ c, T = [c] ∧ c.isAlpha = true := by
  cases T with
  | nil => exact absurd h (by decide)
  | cons a rest =>
    cases rest with
    | nil => exact ⟨a, rfl, h⟩
    | cons b r => exact absurd h (by simp [isSingleAlpha])

theorem take2_SP (t : List Char) (h : t.take 2 = "SP".data) :
    ∃ r, t = 'S' :: 'P' :: r := by
  cases t with
  | nil => exact absurd h (by decide)
  | cons x rest =>
    cases rest with
    | nil =>
      exfalso
      have := congrArg List.length h
      simp at this
    | cons y r =>
      simp only [List.take_succ_cons, List.take_zero] at h
      have hx : x = 'S' := (List.cons.injEq _ _ _ _).mp h |>.1
      have hy : y = 'P' :=
        (List.cons.injEq _ _ _ _).mp ((List.cons.injEq _ _ _ _).mp h).2 |>.1
      exact ⟨r, by rw [hx, hy]⟩

/-- The else-branch of `normTrailing` on a nonempty, non-single-letter
trailing: strip, `SP`-or-tilde, and the (no-op) dash replacement. -/
theorem normTrailing_cons_eq (T : List Char) (hsingle : isSingleAlpha T = false)
    (hTnil : T ≠ [])
    (ht : ∀ c ∈ (if headDotTilde T then T.tail else T), c ≠ '-') :
    normTrailing T =
      (if (if headDotTilde T then T.tail else T).take 2 = "SP".data
       then '.' :: (if headDotTilde T then T.tail else T)
       else '~' :: (if headDotTilde T then T.tail else T)) := by
  unfold normTrailing
  rw [if_neg (by rw [hsingle]; simp)]
  dsimp only
  rw [if_pos hTnil]
  by_cases hsp : (if headDotTilde T then T.tail else T).take 2 = "SP".data
  · rw [if_pos hsp, List.map_cons, map_dash_id _ ht, if_neg (by decide)]
  · rw [if_neg hsp, List.map_cons, map_dash_id _ ht, if_neg (by decide)]

/-- `normTrailing` fixes a `.SP…` trailing. -/
theorem normTrailing_dotSP (t : List Char) (hsp : t.take 2 = "SP".data)
    (ht : ∀ c ∈ t, c ≠ '-') : normTrailing ('.' :: t) = '.' :: t := by
  obtain ⟨r, hr⟩ := take2_SP t hsp
  subst hr
  have hsingle : isSingleAlpha ('.' :: 'S' :: 'P' :: r) = false := rfl
  have hhd : ∀ c ∈ (if headDotTilde ('.' :: 'S' :: 'P' :: r)
      then ('.' :: 'S' :: 'P' :: r).tail else ('.' :: 'S' :: 'P' :: r)), c ≠ '-' := by
    rw [show headDotTilde ('.' :: 'S' :: 'P' :: r) = true from rfl, if_pos rfl,
      List.tail_cons]
    intro c hc
    rcases List.mem_cons.mp hc with h1 | h1
    · rw [h1]; decide
    · rcases List.mem_cons.mp h1 with h2 | h2
      · rw [h2]; decide
      · exact ht c (List.mem_cons_of_mem _ (List.mem_cons_of_mem _ h2))
  rw [normTrailing_cons_eq _ hsingle (by simp) hhd,
    show headDotTilde ('.' :: 'S' :: 'P' :: r) = true from rfl, if_pos rfl,
    List.tail_cons, if_pos hsp]

/-- `normTrailing` fixes a tilde trailing whose tail is not `SP…`. -/
theorem normTrailing_tilde (t : List Char) (hsp : ¬ t.take 2 = "SP".data)
    (ht : ∀ c ∈ t, c ≠ '-') : normTrailing ('~' :: t) = '~' :: t := by
  have hsingle : isSingleAlpha ('~' :: t) = false := by
    cases t with
    | nil => rfl
    | cons a r => rfl
  have hhd : ∀ c ∈ (if headDotTilde ('~' :: t) then ('~' :: t).tail else ('~' :: t)),
      c ≠ '-' := by
    rw [show headDotTilde ('~' :: t) = true from rfl, if_pos rfl, List.tail_cons]
    exact ht
  rw [normTrailing_cons_eq _ hsingle (by simp) hhd,
    show headDotTilde ('~' :: t) = true from rfl, if_pos rfl, List.tail_cons,
    if_neg hsp]

/-- The output of the trailing-mutation block: its `[.0-9]` prefix is empty
(or a single dot before `SP`), it is never `.Final`, it is a fixed point of
the block, and its characters stay clear of newline, underscore and dash. -/
theorem normTrailing_facts (T : List Char)
    (hT : ∀ c ∈ T, c ≠ '\n' ∧ c ≠ '_' ∧ c ≠ '-') :
    ((normTrailing T).takeWhile isVerChar = [] ∨
      ∃ t, normTrailing T = '.' :: t ∧ t.takeWhile isVerChar = []) ∧
    normTrailing T ≠ ".Final".data ∧
    normTrailing (normTrailing T) = normTrailing T ∧
    ∀ c ∈ normTrailing T, c ≠ '\n' ∧ c ≠ '_' ∧ c ≠ '-' := by
  by_cases hsingle : isSingleAlpha T = true
  · obtain ⟨c, hTc, halpha⟩ := isSingleAlpha_eq T hsingle
    subst hTc
    have hnt : normTrailing [c] = [c] := by
      unfold normTrailing
      rw [if_pos hsingle]
    refine ⟨Or.inl ?_, ?_, ?_, ?_⟩
    · rw [hnt, List.takeWhile_cons, alpha_not_verChar c halpha]
      simp
    · rw [hnt]
      intro heq
      have := congrArg List.length heq
      simp at this
    · rw [hnt, hnt]
    · rw [hnt]
      exact hT
  · rw [Bool.not_eq_true] at hsingle
    by_cases hTnil : T = []
    · subst hTnil
      exact ⟨Or.inl rfl, by decide, rfl,
        by intro c hc; exact absurd hc (List.not_mem_nil c)⟩
    · have htchars : ∀ c ∈ (if headDotTilde T then T.tail else T),
          c ≠ '\n' ∧ c ≠ '_' ∧ c ≠ '-' := by
        intro c hc
        by_cases hh : headDotTilde T = true
        · rw [if_pos hh] at hc
          exact hT c (List.mem_of_mem_tail hc)
        · rw [if_neg hh] at hc
          exact hT c hc
      have hnt := normTrailing_cons_eq T hsingle hTnil (fun c hc => (htchars c hc).2.2)
      by_cases hsp : (if headDotTilde T then T.tail else T).take 2 = "SP".data
      · rw [if_pos hsp] at hnt
        obtain ⟨r, hr⟩ := take2_SP _ hsp
        refine ⟨Or.inr ⟨_, hnt, ?_⟩, ?_, ?_, ?_⟩
        · rw [hr, List.takeWhile_cons, show isVerChar 'S' = false from by decide]
          simp
        · rw [hnt, hr]
          intro heq
          have h2 := ((List.cons.injEq _ _ _ _).mp heq).2
          exact absurd ((List.cons.injEq _ _ _ _).mp h2).1 (by decide)
        · rw [hnt]
          exact normTrailing_dotSP _ hsp (fun c hc => (htchars c hc).2.2)
        · rw [hnt]
          intro c hc
          rcases List.mem_cons.mp hc with h1 | h1
          · rw [h1]
            exact ⟨by decide, by decide, by decide⟩
          · exact htchars c h1
      · rw [if_neg hsp] at hnt
        refine ⟨Or.inl ?_, ?_, ?_, ?_⟩
        · rw [hnt, List.takeWhile_cons, show isVerChar '~' = false from by decide]
          simp
        · rw [hnt]
          intro heq
          exact absurd ((List.cons.injEq _ _ _ _).mp heq).1 (by decide)
        · rw [hnt]
          exact normTrailing_tilde _ hsp (fun c hc => (htchars c hc).2.2)
        · rw [hnt]
          intro c hc
          rcases List.mem_cons.mp hc with h1 | h1
          · rw [h1]
            exact ⟨by decide, by decide, by decide⟩
          · exact htchars c h1

/-- A string made of a digit-terminated `[.0-9]` group followed by a
trailing that `normalize_version`'s branches leave alone is a fixed point
of `normalize_version`. -/
theorem normalize_fixed (leading t2 : List Char)
    (hshape : ∃ l0 d, leading = l0 ++ [d] ∧ d.isDigit = true)
    (hver : ∀ c ∈ leading, isVerChar c = true)
    (ht2 : ∀ c ∈ t2, c ≠ '\n' ∧ c ≠ '_' ∧ c ≠ '-')
    (htw : t2.takeWhile isVerChar = [] ∨
      ∃ t, t2 = '.' :: t ∧ t.takeWhile isVerChar = [])
    (hfinal : t2 ≠ ".Final".data)
    (hnorm : normTrailing t2 = t2) :
    normalize_version ⟨leading ++ t2⟩ = some ⟨leading ++ t2⟩ := by
  obtain ⟨l0, d, hld, hdd⟩ := hshape
  have hne : (⟨leading ++ t2⟩ : String) ≠ "" := by
    intro hcon
    have h2 : leading ++ t2 = [] := congrArg String.data hcon
    rw [List.append_eq_nil] at h2
    rw [hld] at h2
    simpa using h2.1
  have hchars : ∀ c ∈ leading ++ t2, c ≠ '_' ∧ c ≠ '-' := by
    intro c hc
    rcases List.mem_append.mp hc with h1 | h1
    · have := isVerChar_no_special c (hver c h1)
      exact ⟨this.1, this.2.1⟩
    · exact ⟨(ht2 c h1).2.1, (ht2 c h1).2.2⟩
  have hrepl : replChars (leading ++ t2) = leading ++ t2 := replChars_id _ hchars
  have hdmem : d ∈ leading := by
    rw [hld]
    exact List.mem_append_right l0 (List.mem_singleton.mpr rfl)
  have hlead2 : dropTrailNonDigit ((leading ++ t2).takeWhile isVerChar) = leading ∧
      ((leading ++ t2).takeWhile isVerChar).any Char.isDigit = true := by
    rcases htw with htw0 | ⟨t, hteq, htwt⟩
    · have hP : (leading ++ t2).takeWhile isVerChar = leading := by
        rw [takeWhile_append_all _ _ _ hver, htw0, List.append_nil]
      constructor
      · rw [hP, hld]
        exact dropTrail_of_last_digit l0 d hdd
      · rw [hP]
        exact List.any_eq_true.mpr ⟨d, hdmem, hdd⟩
    · have hP : (leading ++ t2).takeWhile isVerChar = leading ++ ['.'] := by
        rw [takeWhile_append_all _ _ _ hver, hteq, List.takeWhile_cons,
          if_pos (by decide), htwt]
      constructor
      · rw [hP, hld]
        exact dropTrail_dot l0 d hdd
      · rw [hP]
        exact List.any_eq_true.mpr ⟨d, List.mem_append_left _ hdmem, hdd⟩
  have htrail : (t2.takeWhile fun c => c ≠ '\n') = t2 :=
    takeWhile_all_eq _ t2 (fun c hc => by simp [(ht2 c hc).1])
  unfold normalize_version
  rw [if_neg hne]
  dsimp only
  rw [hrepl, hlead2.2, if_pos rfl, hlead2.1, List.drop_left, htrail,
    if_neg hfinal, hnorm]

/-! ## Claim C10: `normalize_version` is idempotent on its domain -/

/-- **C10.** `normalize_version("") = ""`, and whenever `normalize_version`
returns a result `r` (without raising), running it again on `r` returns
`r` unchanged. -/
theorem c10_normalize_version_idempotent :
    normalize_version "" = some "" ∧
    ∀ v r, normalize_version v = some r → normalize_version r = some r := by
  refine ⟨rfl, ?_⟩
  intro v r h
  by_cases hv : v = ""
  · subst hv
    have h0 : (some "" : Option String) = some r := h
    have hr : r = "" := (Option.some.inj h0).symm
    rw [hr]
    rfl
  · unfold normalize_version at h
    rw [if_neg hv] at h
    dsimp only at h
    by_cases hany : ((replChars v.data).takeWhile isVerChar).any Char.isDigit = true
    · rw [if_pos hany] at h
      obtain ⟨l0, d, hld, hdd, hmemP⟩ :=
        dropTrail_shape ((replChars v.data).takeWhile isVerChar) hany
      have hver : ∀ c ∈ dropTrailNonDigit ((replChars v.data).takeWhile isVerChar),
          isVerChar c = true :=
        fun c hc => List.mem_takeWhile_imp (hmemP c hc)
      have hLchars := mem_replChars v.data
      have htfacts : ∀ c ∈ (((replChars v.data).drop
            (dropTrailNonDigit ((replChars v.data).takeWhile isVerChar)).length).takeWhile
            fun c => c ≠ '\n'),
          c ≠ '\n' ∧ c ≠ '_' ∧ c ≠ '-' := by
        intro c hc
        have h1 : c ≠ '\n' := by
          have := List.mem_takeWhile_imp hc
          simpa using this
        have h2 : c ∈ replChars v.data := by
          have hsub1 : List.Sublist _ ((replChars v.data).drop
              (dropTrailNonDigit ((replChars v.data).takeWhile isVerChar)).length) :=
            List.takeWhile_sublist (fun c => decide (c ≠ '\n'))
          have hsub2 : List.Sublist ((replChars v.data).drop
              (dropTrailNonDigit ((replChars v.data).takeWhile isVerChar)).length)
              (replChars v.data) := List.drop_sublist _ _
          exact hsub2.mem (hsub1.mem hc)
        exact ⟨h1, (hLchars c h2).1, (hLchars c h2).2⟩
      by_cases hfin : (((replChars v.data).drop
          (dropTrailNonDigit ((replChars v.data).takeWhile isVerChar)).length).takeWhile
          fun c => c ≠ '\n') = ".Final".data
      · rw [if_pos hfin] at h
        have hr : r = ⟨dropTrailNonDigit ((replChars v.data).takeWhile isVerChar)⟩ :=
          (Option.some.inj h).symm
        subst hr
        have hfix := normalize_fixed
          (dropTrailNonDigit ((replChars v.data).takeWhile isVerChar)) []
          ⟨l0, d, hld, hdd⟩ hver
          (by intro c hc; exact absurd hc (List.not_mem_nil c))
          (Or.inl rfl) (by decide) rfl
        rw [List.append_nil] at hfix
        exact hfix
      · rw [if_neg hfin] at h
        have hr : r = ⟨dropTrailNonDigit ((replChars v.data).takeWhile isVerChar) ++
            normTrailing (((replChars v.data).drop
              (dropTrailNonDigit ((replChars v.data).takeWhile isVerChar)).length).takeWhile
              fun c => c ≠ '\n')⟩ :=
          (Option.some.inj h).symm
        subst hr
        obtain ⟨hw, hf, hid, hch⟩ := normTrailing_facts _ htfacts
        exact normalize_fixed _ _ ⟨l0, d, hld, hdd⟩ hver hch hw hf hid
    · rw [if_neg hany] at h
      exact absurd h (by simp)

/-- Witness for C10: `1.0b3` normalizes to `1.0~b3`, and the theorem fixes
the result. -/
theorem c10_witness :
    normalize_version "" = some "" ∧
    normalize_version "1.0b3" = some "1.0~b3" ∧
    normalize_version "1.0~b3" = some "1.0~b3" :=
  ⟨c10_normalize_version_idempotent.1, by decide,
    c10_normalize_version_idempotent.2 "1.0b3" "1.0~b3" (by decide)⟩

end ModUtils
